import Mathlib

/-!
# Verification of the Boids spatial-index core

Shallow embedding of the two spatial-index variants (`Octree`, `BinaryBvh`),
the shared geometric primitives (`Aabbs.ts`, `Collisions.ts`) and the
operations the specification's testable properties talk about.

Coordinates are modelled as exact rationals; the JavaScript number type is
IEEE double, but every property below is about the algebraic structure of the
algorithms, which the rational model reflects faithfully (all comparisons in
the source are plain `<`/`<=` on finite values).  Squared distances are used
exactly where the source uses them (`distanceToSquared`), so no square roots
are needed.
-/

namespace Boids

/-- Model of `THREE.Vector3`: a 3-D vector with exact rational components. -/
structure Vec3 where
  x : ℚ
  y : ℚ
  z : ℚ
deriving DecidableEq, Repr

namespace Vec3

/-- `Vector3.getComponent`. -/
def get (v : Vec3) : Fin 3 → ℚ
  | 0 => v.x
  | 1 => v.y
  | 2 => v.z

/-- `Vector3.setComponent`. -/
def set (v : Vec3) : Fin 3 → ℚ → Vec3
  | 0, a => { v with x := a }
  | 1, a => { v with y := a }
  | 2, a => { v with z := a }

/-- Componentwise addition (`Vector3.add`). -/
def add (v w : Vec3) : Vec3 := ⟨v.x + w.x, v.y + w.y, v.z + w.z⟩

/-- Componentwise subtraction (`Vector3.sub`). -/
def sub (v w : Vec3) : Vec3 := ⟨v.x - w.x, v.y - w.y, v.z - w.z⟩

/-- Componentwise division (`Vector3.divide`). -/
def div (v w : Vec3) : Vec3 := ⟨v.x / w.x, v.y / w.y, v.z / w.z⟩

/-- Scalar multiple (`Vector3.multiplyScalar`). -/
def smul (a : ℚ) (v : Vec3) : Vec3 := ⟨a * v.x, a * v.y, a * v.z⟩

/-- Componentwise minimum (`Vector3.min`). -/
def cmin (v w : Vec3) : Vec3 := ⟨min v.x w.x, min v.y w.y, min v.z w.z⟩

/-- Componentwise maximum (`Vector3.max`). -/
def cmax (v w : Vec3) : Vec3 := ⟨max v.x w.x, max v.y w.y, max v.z w.z⟩

/-- `Vector3.distanceToSquared`. -/
def distSq (v w : Vec3) : ℚ :=
  (v.x - w.x) ^ 2 + (v.y - w.y) ^ 2 + (v.z - w.z) ^ 2

/-- Componentwise clamp (`Vector3.clamp`), assuming `lo ≤ hi` as three.js does. -/
def clamp (v lo hi : Vec3) : Vec3 :=
  ⟨max lo.x (min hi.x v.x), max lo.y (min hi.y v.y), max lo.z (min hi.z v.z)⟩

/-- `maxComponent` from `Vectors.ts` specialised to 3 components: start with
component 0 and replace whenever a later component is strictly larger. -/
def maxComponent (v : Vec3) : ℚ :=
  let m := v.x
  let m := if v.y > m then v.y else m
  if v.z > m then v.z else m

/-- `minComponent` from `Vectors.ts` specialised to 3 components. -/
def minComponent (v : Vec3) : ℚ :=
  let m := v.x
  let m := if v.y < m then v.y else m
  if v.z < m then v.z else m

end Vec3

/-- Model of `THREE.Box3`: an axis-aligned box given by its two corners. -/
structure Box3 where
  min : Vec3
  max : Vec3
deriving DecidableEq, Repr

namespace Box3

/-- `Box3.containsPoint` (boundary inclusive). -/
def containsPoint (b : Box3) (p : Vec3) : Bool :=
  b.min.x ≤ p.x && p.x ≤ b.max.x &&
  (b.min.y ≤ p.y && p.y ≤ b.max.y) &&
  (b.min.z ≤ p.z && p.z ≤ b.max.z)

/-- `Box3.clampPoint`. -/
def clampPoint (b : Box3) (p : Vec3) : Vec3 := p.clamp b.min b.max

/-- `Box3.getCenter`. -/
def center (b : Box3) : Vec3 := Vec3.smul (1/2) (b.min.add b.max)

/-- `Box3.getSize`. -/
def size (b : Box3) : Vec3 := b.max.sub b.min

/-- A box is geometrically valid when `min ≤ max` componentwise (the spec's
AABB invariant). -/
def Valid (b : Box3) : Prop :=
  b.min.x ≤ b.max.x ∧ b.min.y ≤ b.max.y ∧ b.min.z ≤ b.max.z

instance (b : Box3) : Decidable b.Valid := by unfold Valid; infer_instance

end Box3

/-- Model of `THREE.Sphere`: query shape with center and radius. -/
structure Sphere where
  center : Vec3
  radius : ℚ
deriving DecidableEq, Repr

/-- `Sphere.containsPoint`: squared distance to the center at most radius². -/
def Sphere.containsPoint (s : Sphere) (p : Vec3) : Bool :=
  Vec3.distSq p s.center ≤ s.radius * s.radius

/-- `Box3.intersectsSphere`: the clamped center is within the radius. -/
def Box3.intersectsSphere (b : Box3) (s : Sphere) : Bool :=
  Vec3.distSq (b.clampPoint s.center) s.center ≤ s.radius * s.radius

/-! ## `Aabbs.ts` -/

/-- `signedDistancesToAabbSides`: the six signed differences between the point
and the box sides, in the order `min.xyz, max.xyz`. -/
def signedDistancesToAabbSides (point : Vec3) (aabb : Box3) : List ℚ :=
  [ point.x - aabb.min.x, point.y - aabb.min.y, point.z - aabb.min.z,
    point.x - aabb.max.x, point.y - aabb.max.y, point.z - aabb.max.z ]

/-- `distancesToAabbSides`: absolute values of the signed distances. -/
def distancesToAabbSides (point : Vec3) (aabb : Box3) : List ℚ :=
  (signedDistancesToAabbSides point aabb).map (fun d => |d|)

/-- `aabbInsideSphere`: the sphere center is inside the box and each of the six
face distances is at most the radius.  (The loop in the source returns `false`
on the first distance strictly greater than the radius.) -/
def aabbInsideSphere (aabb : Box3) (sphere : Sphere) : Bool :=
  if ¬ aabb.containsPoint sphere.center then false
  else (distancesToAabbSides sphere.center aabb).all (fun d => d ≤ sphere.radius)

/-- `aabbCenteredAt`. -/
def aabbCenteredAt (center size : Vec3) : Box3 :=
  let halfSize := Vec3.smul (1/2) size
  ⟨center.sub halfSize, center.add halfSize⟩

/-- `mirrorInsideAabb` from `Aabbs.ts`.  The loop over the six signed
distances is unrolled: iterations 0–2 handle the `min` faces (guard
`signedDistance < 0`), iterations 3–5 the `max` faces (guard
`signedDistance > 0`); each sets one component of the accumulator vector via
`setComponent(i % 3, -2 * signedDistance)`, and the accumulator is finally
added to the point. -/
def mirrorInsideAabb (point : Vec3) (aabb : Box3) : Vec3 :=
  if aabb.containsPoint point then point
  else
    let v : Vec3 := ⟨0, 0, 0⟩
    let v := if point.x - aabb.min.x < 0 then v.set 0 (-2 * (point.x - aabb.min.x)) else v
    let v := if point.y - aabb.min.y < 0 then v.set 1 (-2 * (point.y - aabb.min.y)) else v
    let v := if point.z - aabb.min.z < 0 then v.set 2 (-2 * (point.z - aabb.min.z)) else v
    let v := if point.x - aabb.max.x > 0 then v.set 0 (-2 * (point.x - aabb.max.x)) else v
    let v := if point.y - aabb.max.y > 0 then v.set 1 (-2 * (point.y - aabb.max.y)) else v
    let v := if point.z - aabb.max.z > 0 then v.set 2 (-2 * (point.z - aabb.max.z)) else v
    v.add point

end Boids

namespace Boids

/-- Closed form of one axis of `mirrorInsideAabb`: the later `max`-face write
overwrites the earlier `min`-face write, so the `max` excess takes priority. -/
def reflectCoord (c lo hi : ℚ) : ℚ :=
  if c - hi > 0 then 2 * hi - c
  else if c - lo < 0 then 2 * lo - c
  else c

theorem Vec3.ext_components (u w : Vec3)
    (hx : u.x = w.x) (hy : u.y = w.y) (hz : u.z = w.z) : u = w := by
  cases u; cases w; cases hx; cases hy; cases hz; rfl

@[simp] theorem Vec3.set0_x (v : Vec3) (a : ℚ) : (v.set 0 a).x = a := rfl

@[simp] theorem Vec3.set0_y (v : Vec3) (a : ℚ) : (v.set 0 a).y = v.y := rfl

@[simp] theorem Vec3.set0_z (v : Vec3) (a : ℚ) : (v.set 0 a).z = v.z := rfl

@[simp] theorem Vec3.set1_x (v : Vec3) (a : ℚ) : (v.set 1 a).x = v.x := rfl

@[simp] theorem Vec3.set1_y (v : Vec3) (a : ℚ) : (v.set 1 a).y = a := rfl

@[simp] theorem Vec3.set1_z (v : Vec3) (a : ℚ) : (v.set 1 a).z = v.z := rfl

@[simp] theorem Vec3.set2_x (v : Vec3) (a : ℚ) : (v.set 2 a).x = v.x := rfl

@[simp] theorem Vec3.set2_y (v : Vec3) (a : ℚ) : (v.set 2 a).y = v.y := rfl

@[simp] theorem Vec3.set2_z (v : Vec3) (a : ℚ) : (v.set 2 a).z = a := rfl

@[simp] theorem Vec3.add_x (v w : Vec3) : (v.add w).x = v.x + w.x := rfl

@[simp] theorem Vec3.add_y (v w : Vec3) : (v.add w).y = v.y + w.y := rfl

@[simp] theorem Vec3.add_z (v w : Vec3) : (v.add w).z = v.z + w.z := rfl

theorem mirrorInsideAabb_eq_reflect (p : Vec3) (b : Box3) :
    mirrorInsideAabb p b =
      if b.containsPoint p then p
      else ⟨reflectCoord p.x b.min.x b.max.x,
            reflectCoord p.y b.min.y b.max.y,
            reflectCoord p.z b.min.z b.max.z⟩ := by
  unfold mirrorInsideAabb
  rcases hc : b.containsPoint p
  · simp only [hc, Bool.false_eq_true, if_false]
    apply Vec3.ext_components
    · simp only [apply_ite Vec3.x, Vec3.set0_x, Vec3.set0_y, Vec3.set0_z,
        Vec3.set1_x, Vec3.set1_y, Vec3.set1_z, Vec3.set2_x, Vec3.set2_y,
        Vec3.set2_z, Vec3.add_x, ite_self, reflectCoord]
      split_ifs <;> ring
    · simp only [apply_ite Vec3.y, Vec3.set0_x, Vec3.set0_y, Vec3.set0_z,
        Vec3.set1_x, Vec3.set1_y, Vec3.set1_z, Vec3.set2_x, Vec3.set2_y,
        Vec3.set2_z, Vec3.add_y, ite_self, reflectCoord]
      split_ifs <;> ring
    · simp only [apply_ite Vec3.z, Vec3.set0_x, Vec3.set0_y, Vec3.set0_z,
        Vec3.set1_x, Vec3.set1_y, Vec3.set1_z, Vec3.set2_x, Vec3.set2_y,
        Vec3.set2_z, Vec3.add_z, ite_self, reflectCoord]
      split_ifs <;> ring
  · simp [hc]

end Boids

namespace Boids

/-- C10 (counterexample): `mirrorAcrossBoundary` does **not** wrap the excess
to the opposite side of the box.  For the box `[(0,0,0),(10,10,10)]` and the
point `(-3,5,5)` — 3 units past the `min.x` face — the claim demands the
result `x = max.x - 3 = 7`, but the code returns `x = min.x + 3 = 3`: the
excess is reflected back across the *same* face. -/
theorem mirror_wrap_around_counterexample :
    mirrorInsideAabb ⟨-3, 5, 5⟩ ⟨⟨0, 0, 0⟩, ⟨10, 10, 10⟩⟩ = ⟨3, 5, 5⟩ ∧
      (3 : ℚ) ≠ 10 - 3 := by
  constructor
  · rw [mirrorInsideAabb_eq_reflect]
    norm_num [Box3.containsPoint, reflectCoord]
  · norm_num

/-- C10 (amended): `mirrorInsideAabb` returns `p` unchanged when `p` is inside
the box; when `p` is outside, then independently per axis, an excess of `d`
past the `min` face comes back at distance `d` inside the **min** face
(`min + d`), an excess of `d` past the `max` face comes back at `max - d`,
and an axis within the box interval is unchanged — a reflection across the
violated face, not a wrap-around to the opposite side. -/
theorem mirror_reflects_back_same_side (p : Vec3) (b : Box3) (hv : b.Valid) :
    (b.containsPoint p = true → mirrorInsideAabb p b = p) ∧
    (b.containsPoint p = false →
      ((p.x < b.min.x → (mirrorInsideAabb p b).x = b.min.x + (b.min.x - p.x)) ∧
       (b.max.x < p.x → (mirrorInsideAabb p b).x = b.max.x - (p.x - b.max.x)) ∧
       (b.min.x ≤ p.x → p.x ≤ b.max.x → (mirrorInsideAabb p b).x = p.x)) ∧
      ((p.y < b.min.y → (mirrorInsideAabb p b).y = b.min.y + (b.min.y - p.y)) ∧
       (b.max.y < p.y → (mirrorInsideAabb p b).y = b.max.y - (p.y - b.max.y)) ∧
       (b.min.y ≤ p.y → p.y ≤ b.max.y → (mirrorInsideAabb p b).y = p.y)) ∧
      ((p.z < b.min.z → (mirrorInsideAabb p b).z = b.min.z + (b.min.z - p.z)) ∧
       (b.max.z < p.z → (mirrorInsideAabb p b).z = b.max.z - (p.z - b.max.z)) ∧
       (b.min.z ≤ p.z → p.z ≤ b.max.z → (mirrorInsideAabb p b).z = p.z))) := by
  obtain ⟨hvx, hvy, hvz⟩ := hv
  constructor
  · intro hc
    simp [mirrorInsideAabb, hc]
  · intro hc
    rw [mirrorInsideAabb_eq_reflect, hc]
    simp only [Bool.false_eq_true, if_false]
    refine ⟨⟨?_, ?_, ?_⟩, ⟨?_, ?_, ?_⟩, ⟨?_, ?_, ?_⟩⟩ <;>
      · intros
        simp only [reflectCoord]
        split_ifs <;> linarith

/-- C10 witness: the amended reflection formula evaluated at the concrete
counterexample input. -/
theorem mirror_reflects_back_same_side_witness :
    (Box3.mk ⟨0, 0, 0⟩ ⟨10, 10, 10⟩).Valid ∧
      (Box3.mk ⟨0, 0, 0⟩ ⟨10, 10, 10⟩).containsPoint ⟨-3, 5, 5⟩ = false ∧
      (-3 : ℚ) < 0 ∧
      (mirrorInsideAabb ⟨-3, 5, 5⟩ ⟨⟨0, 0, 0⟩, ⟨10, 10, 10⟩⟩).x = 0 + (0 - (-3)) :=
  ⟨by decide, by decide, by decide,
    ((mirror_reflects_back_same_side ⟨-3, 5, 5⟩ ⟨⟨0, 0, 0⟩, ⟨10, 10, 10⟩⟩
      (by decide)).2 (by decide)).1.1 (by decide)⟩

end Boids

namespace Boids

/-! ## Octree (`Octree.ts`) -/

/-- Componentwise product (`Vector3.multiply`). -/
def Vec3.mul (v w : Vec3) : Vec3 := ⟨v.x * w.x, v.y * w.y, v.z * w.z⟩

/-- An item stored in a spatial index.  `BvhItem` only exposes `position`; the
`id` field stands for the object identity of the TS item objects (two distinct
boids may share a position). -/
structure Item where
  id : ℕ
  pos : Vec3
deriving DecidableEq, Repr

/-- `BRUTE_FORCE_THRESHOLD` from `Octree.ts`. -/
def BRUTE_FORCE_THRESHOLD : ℕ := 30

/-- `CHILDREN_CENTERS`: centers of the 8 octants relative to a parent of unit
size centered at the origin. -/
def CHILDREN_CENTERS : List Vec3 :=
  (List.range 8).map (fun i =>
    Vec3.smul (1/4)
      ⟨if i % 2 == 0 then 1 else -1,
       if i / 2 % 2 == 0 then 1 else -1,
       if i / 4 % 2 == 0 then 1 else -1⟩)

/-- Octree `Node`.  The TS node also stores a `depth` field; every node built
by the code has that field equal to its structural depth (the constructor
seeds the root with 0 and `subdivide` creates children with `depth + 1`), so
the embedding passes the depth along the recursion instead of storing it. -/
inductive ONode where
  | mk (boundary : Box3) (isSubdivided : Bool) (items : List Item)
       (count : ℕ) (children : List ONode)
deriving Repr

namespace ONode

def boundary : ONode → Box3
  | mk b _ _ _ _ => b

def isSubdivided : ONode → Bool
  | mk _ s _ _ _ => s

def items : ONode → List Item
  | mk _ _ i _ _ => i

def count : ONode → ℕ
  | mk _ _ _ c _ => c

def children : ONode → List ONode
  | mk _ _ _ _ cs => cs

/-- The 8 fresh octant children `Node.subdivide` creates for a boundary. -/
def octantChildren (b : Box3) : List ONode :=
  let parentSize := b.size
  let childSize := Vec3.smul (1/2) parentSize
  let parentCenter := b.center
  CHILDREN_CENTERS.map (fun nc =>
    ONode.mk (aabbCenteredAt ((nc.mul parentSize).add parentCenter) childSize)
      false [] 0 [])

/-- `Node.subdivide`: create the 8 octant children (the TS code stores
`depth + 1` in each child; depth is a recursion parameter here). -/
def subdivideNode : ONode → ONode
  | mk b _ items count _ =>
    mk b true items count (octantChildren b)

/-- `Node.clear`: drops the children, the flag and the bucket.  The TS code
does **not** reset `count`. -/
def clear : ONode → ONode
  | mk b _ _ count _ => mk b false [] count []

end ONode

mutual

/-- `Node.insert`, returning the success flag and the updated node (the TS
method mutates the node in place; a failed insertion may still have
subdivided nodes along the way, which the returned node keeps).

The bucket test in the source is `items.length < capacity || depth ==
maxDepth`; reachable nodes never have `depth > maxDepth` (recursion stops at
`maxDepth`), so the embedding uses the equivalent `maxDepth ≤ depth`, which
also makes termination evident. -/
def ONode.insert (capacity maxDepth : ℕ) (item : Item) (depth : ℕ) :
    ONode → Bool × ONode
  | .mk b sub items count children =>
    if ¬ b.containsPoint item.pos then (false, .mk b sub items count children)
    else if h : items.length < capacity ∨ maxDepth ≤ depth then
      (true, .mk b sub (items ++ [item]) (count + 1) children)
    else
      match (if sub then ONode.mk b sub items count children
             else (ONode.mk b sub items count children).subdivideNode) with
      | .mk b' sub' items' count' children' =>
        let r := ONode.insertList capacity maxDepth item (depth + 1) children'
        (r.1, .mk b' sub' items' (if r.1 then count' + 1 else count') r.2)
termination_by n => (maxDepth + 1 - depth, 0)
decreasing_by apply Prod.Lex.left; omega

/-- The `for` loop over the children in `Node.insert`: try each child in
order, stopping at the first success; failed attempts keep their mutations. -/
def ONode.insertList (capacity maxDepth : ℕ) (item : Item) (depth : ℕ) :
    List ONode → Bool × List ONode
  | [] => (false, [])
  | c :: cs =>
    let r := ONode.insert capacity maxDepth item depth c
    if r.1 then (true, r.2 :: cs)
    else
      let rs := ONode.insertList capacity maxDepth item depth cs
      (rs.1, r.2 :: rs.2)
termination_by cs => (maxDepth + 1 - depth, cs.length + 1)
decreasing_by
  · apply Prod.Lex.right; simp only [List.length_cons]; omega
  · apply Prod.Lex.right; simp only [List.length_cons]; omega

end

end Boids

namespace Boids

mutual

/-- `Node.getAllItems`: yields this node's bucket, then recurses into the
children — but only into children whose **own bucket** is non-empty (the
guard `children[i].items.length > 0` from the source), and only when the
node is subdivided. -/
def ONode.getAllItems : ONode → List Item
  | .mk _ sub items _ children =>
    items ++ if sub then ONode.getAllItemsList children else []

def ONode.getAllItemsList : List ONode → List Item
  | [] => []
  | c :: cs =>
    (if c.items.length > 0 then c.getAllItems else []) ++ ONode.getAllItemsList cs

end

mutual

/-- All items stored in a subtree (the mathematical contents, with no
traversal quirks): own bucket plus everything in the children. -/
def ONode.allItems : ONode → List Item
  | .mk _ _ items _ children => items ++ ONode.allItemsList children

def ONode.allItemsList : List ONode → List Item
  | [] => []
  | c :: cs => c.allItems ++ ONode.allItemsList cs

end

mutual

/-- `Node.queryItemsFromSphere` (recursive, visitor-order preserved):
skip if the boundary misses the sphere; if the boundary passes
`aabbInsideSphere`, yield the whole subtree unconditionally; if the subtree
`count` is below `BRUTE_FORCE_THRESHOLD`, yield the whole subtree filtered by
the exact check; otherwise check this bucket exactly and recurse. -/
def ONode.query (s : Sphere) : ONode → List Item
  | .mk b sub items count children =>
    if ¬ b.intersectsSphere s then []
    else if aabbInsideSphere b s then (ONode.mk b sub items count children).getAllItems
    else if count < BRUTE_FORCE_THRESHOLD then
      ((ONode.mk b sub items count children).getAllItems).filter
        (fun i => s.containsPoint i.pos)
    else
      items.filter (fun i => s.containsPoint i.pos) ++
        if sub then ONode.queryList s children else []

def ONode.queryList (s : Sphere) : List ONode → List Item
  | [] => []
  | c :: cs => c.query s ++ ONode.queryList s cs

end

/-- The `Octree` class: a root node plus the construction parameters. -/
structure Octree where
  root : ONode
  nodeCapacity : ℕ
  maxDepth : ℕ

/-- `new Octree(boundary, nodeCapacity, maxDepth)`: fresh root at depth 0. -/
def mkOctree (boundary : Box3) (nodeCapacity maxDepth : ℕ) : Octree :=
  ⟨.mk boundary false [] 0 [], nodeCapacity, maxDepth⟩

/-- `Octree.insert`: inserts at the root (depth 0) and discards the flag. -/
def Octree.insert (o : Octree) (item : Item) : Octree :=
  { o with root := (o.root.insert o.nodeCapacity o.maxDepth item 0).2 }

/-- `Octree.clear`. -/
def Octree.clear (o : Octree) : Octree :=
  { o with root := o.root.clear }

/-- `Octree.queryItemsFromSphere`. -/
def Octree.queryItemsFromSphere (o : Octree) (s : Sphere) : List Item :=
  o.root.query s

/-- A public operation on the octree (`insert` or `clear`). -/
inductive OctOp where
  | ins (item : Item)
  | clear
deriving DecidableEq, Repr

def Octree.runOp (o : Octree) : OctOp → Octree
  | .ins item => o.insert item
  | .clear => o.clear

/-- A sequence of public operations applied to a freshly built octree. -/
def runOct (boundary : Box3) (nodeCapacity maxDepth : ℕ) (ops : List OctOp) : Octree :=
  ops.foldl Octree.runOp (mkOctree boundary nodeCapacity maxDepth)

end Boids

namespace Boids

@[simp] theorem ONode.boundary_mk (b s i c cs) :
    (ONode.mk b s i c cs).boundary = b := rfl

@[simp] theorem ONode.isSubdivided_mk (b s i c cs) :
    (ONode.mk b s i c cs).isSubdivided = s := rfl

@[simp] theorem ONode.items_mk (b s i c cs) :
    (ONode.mk b s i c cs).items = i := rfl

@[simp] theorem ONode.count_mk (b s i c cs) :
    (ONode.mk b s i c cs).count = c := rfl

@[simp] theorem ONode.children_mk (b s i c cs) :
    (ONode.mk b s i c cs).children = cs := rfl

/-- Structural induction for `ONode` through the nested `List` of children. -/
theorem ONode.inductionOn (motive : ONode → Prop)
    (h : ∀ b sub items count children,
      (∀ c ∈ children, motive c) → motive (.mk b sub items count children)) :
    ∀ n, motive n
  | .mk b sub items count children =>
    h b sub items count children (fun c hc =>
      have : sizeOf c < sizeOf (ONode.mk b sub items count children) := by
        have := List.sizeOf_lt_of_mem hc
        simp only [ONode.mk.sizeOf_spec]
        omega
      ONode.inductionOn motive h c)
termination_by n => sizeOf n

@[simp] theorem ONode.allItems_mk (b s i c cs) :
    (ONode.mk b s i c cs).allItems = i ++ ONode.allItemsList cs := by
  rw [ONode.allItems]

@[simp] theorem ONode.allItemsList_nil : ONode.allItemsList [] = [] := by
  rw [ONode.allItemsList]

@[simp] theorem ONode.allItemsList_cons (c cs) :
    ONode.allItemsList (c :: cs) = c.allItems ++ ONode.allItemsList cs := by
  rw [ONode.allItemsList]

theorem ONode.mem_allItemsList {i : Item} {cs : List ONode} :
    i ∈ ONode.allItemsList cs ↔ ∃ c ∈ cs, i ∈ c.allItems := by
  induction cs with
  | nil => simp
  | cons c cs ih => simp [ih]

/-- Well-formedness of an octree node, as established by the constructor and
preserved by `insert`/`clear` (for `capacity ≥ 1`):
every item of the subtree lies inside the node's boundary; an unsubdivided
node has no children; a node with an empty bucket has an empty subtree
(so the `items.length > 0` guard of `getAllItems` skips nothing); and the
children are in turn well-formed. -/
inductive OWF : ONode → Prop
  | intro (b sub items count children)
      (hin : ∀ i ∈ (ONode.mk b sub items count children).allItems,
        b.containsPoint i.pos = true)
      (hflag : sub = false → children = [])
      (hempty : items = [] → ONode.allItemsList children = [])
      (hch : ∀ c ∈ children, OWF c) :
      OWF (.mk b sub items count children)

theorem OWF.hin : ∀ {n : ONode}, OWF n →
    ∀ i ∈ n.allItems, n.boundary.containsPoint i.pos = true
  | _, .intro _ _ _ _ _ hin _ _ _ => hin

theorem OWF.hflag : ∀ {n : ONode}, OWF n → n.isSubdivided = false → n.children = []
  | _, .intro _ _ _ _ _ _ hflag _ _ => hflag

theorem OWF.hempty : ∀ {n : ONode}, OWF n →
    n.items = [] → ONode.allItemsList n.children = []
  | _, .intro _ _ _ _ _ _ _ hempty _ => hempty

theorem OWF.hch : ∀ {n : ONode}, OWF n → ∀ c ∈ n.children, OWF c
  | _, .intro _ _ _ _ _ _ _ _ hch => hch

end Boids

namespace Boids

@[simp] theorem ONode.getAllItems_mk (b s i c cs) :
    (ONode.mk b s i c cs).getAllItems =
      i ++ if s then ONode.getAllItemsList cs else [] := by
  rw [ONode.getAllItems]

@[simp] theorem ONode.getAllItemsList_nil : ONode.getAllItemsList [] = [] := by
  rw [ONode.getAllItemsList]

@[simp] theorem ONode.getAllItemsList_cons (c cs) :
    ONode.getAllItemsList (c :: cs) =
      (if c.items.length > 0 then c.getAllItems else []) ++
        ONode.getAllItemsList cs := by
  rw [ONode.getAllItemsList]

theorem ONode.getAllItemsList_sublist (cs : List ONode)
    (ih : ∀ c ∈ cs, List.Sublist c.getAllItems c.allItems) :
    List.Sublist (ONode.getAllItemsList cs) (ONode.allItemsList cs) := by
  induction cs with
  | nil => simp
  | cons c cs ihl =>
    simp only [getAllItemsList_cons, allItemsList_cons]
    refine List.Sublist.append ?_ (ihl fun d hd => ih d (by simp [hd]))
    split_ifs
    · exact ih c (by simp)
    · exact List.nil_sublist _

/-- `getAllItems` yields a sublist of the subtree contents (it can only skip
children, never duplicate). -/
theorem ONode.getAllItems_sublist : ∀ n : ONode, List.Sublist n.getAllItems n.allItems := by
  refine ONode.inductionOn _ ?_
  intro b sub items count children ih
  simp only [getAllItems_mk, allItems_mk]
  refine List.Sublist.append (List.Sublist.refl _) ?_
  split_ifs
  · exact getAllItemsList_sublist children ih
  · exact List.nil_sublist _

theorem ONode.getAllItemsList_eq (cs : List ONode)
    (ih : ∀ c ∈ cs, OWF c → c.getAllItems = c.allItems)
    (hwf : ∀ c ∈ cs, OWF c) :
    ONode.getAllItemsList cs = ONode.allItemsList cs := by
  induction cs with
  | nil => simp
  | cons c cs ihl =>
    simp only [getAllItemsList_cons, allItemsList_cons]
    have htail := ihl (fun d hd => ih d (by simp [hd])) (fun d hd => hwf d (by simp [hd]))
    rw [htail]
    congr 1
    split_ifs with hg
    · exact ih c (by simp) (hwf c (by simp))
    · have hcwf := hwf c (by simp)
      have hItems : c.items = [] := by
        rcases h : c.items with _ | _
        · rfl
        · rw [h] at hg; simp at hg
      cases c with
      | mk b' s' i' cnt' ch' =>
        have h3 := hcwf.hempty (by simpa using hItems)
        simp only [allItems_mk]
        simp only [ONode.items_mk] at hItems
        simp only [ONode.children_mk] at h3
        simp [hItems, h3]

/-- Under the well-formedness invariant, `getAllItems` returns exactly the
subtree contents: the `items.length > 0` guard only ever skips empty
subtrees. -/
theorem ONode.getAllItems_eq_allItems : ∀ n : ONode, OWF n → n.getAllItems = n.allItems := by
  refine ONode.inductionOn _ ?_
  intro b sub items count children ih hwf
  simp only [getAllItems_mk, allItems_mk]
  congr 1
  rcases hsub : sub
  · have hones : children = [] := hwf.hflag (by simp [hsub])
    simp [hones]
  · simp only [if_pos]
    exact getAllItemsList_eq children ih (hwf.hch)

end Boids

namespace Boids

/-- Per-axis clamp minimality: the clamped coordinate is at least as close to
`c` as any coordinate of the interval `[lo, hi]`. -/
theorem clamp_sq_le (lo hi p c : ℚ) (h1 : lo ≤ p) (h2 : p ≤ hi) :
    (max lo (min hi c) - c) ^ 2 ≤ (p - c) ^ 2 := by
  rcases le_total c lo with hcl | hcl
  · have hmin : min hi c = c := min_eq_right (hcl.trans (h1.trans h2))
    have hmax : max lo c = lo := max_eq_left hcl
    rw [hmin, hmax]
    nlinarith
  · rcases le_total hi c with hch | hch
    · have hmin : min hi c = hi := min_eq_left hch
      have hmax : max lo hi = hi := max_eq_right (h1.trans h2)
      rw [hmin, hmax]
      nlinarith
    · have hmin : min hi c = c := min_eq_right hch
      have hmax : max lo c = c := max_eq_right hcl
      rw [hmin, hmax]
      nlinarith

theorem Box3.containsPoint_iff {b : Box3} {p : Vec3} :
    b.containsPoint p = true ↔
      b.min.x ≤ p.x ∧ p.x ≤ b.max.x ∧ b.min.y ≤ p.y ∧ p.y ≤ b.max.y ∧
      b.min.z ≤ p.z ∧ p.z ≤ b.max.z := by
  simp [Box3.containsPoint]
  tauto

/-- If the box contains a point of the sphere, `intersectsSphere` holds: the
clamped center is no farther from the center than that point. -/
theorem Box3.intersectsSphere_of_point {b : Box3} {s : Sphere} {p : Vec3}
    (hc : b.containsPoint p = true) (hs : s.containsPoint p = true) :
    b.intersectsSphere s = true := by
  rw [Box3.containsPoint_iff] at hc
  obtain ⟨h1, h2, h3, h4, h5, h6⟩ := hc
  simp only [Sphere.containsPoint, decide_eq_true_eq] at hs
  simp only [Box3.intersectsSphere, Box3.clampPoint, Vec3.clamp, Vec3.distSq,
    decide_eq_true_eq]
  have hx := clamp_sq_le b.min.x b.max.x p.x s.center.x h1 h2
  have hy := clamp_sq_le b.min.y b.max.y p.y s.center.y h3 h4
  have hz := clamp_sq_le b.min.z b.max.z p.z s.center.z h5 h6
  simp only [Vec3.distSq] at hs
  linarith

theorem ONode.query_mk (s : Sphere) (b sub items count children) :
    (ONode.mk b sub items count children).query s =
      if ¬ b.intersectsSphere s then []
      else if aabbInsideSphere b s then
        (ONode.mk b sub items count children).getAllItems
      else if count < BRUTE_FORCE_THRESHOLD then
        ((ONode.mk b sub items count children).getAllItems).filter
          (fun i => s.containsPoint i.pos)
      else
        items.filter (fun i => s.containsPoint i.pos) ++
          if sub then ONode.queryList s children else [] := by
  rw [ONode.query]

@[simp] theorem ONode.queryList_nil (s : Sphere) : ONode.queryList s [] = [] := by
  rw [ONode.queryList]

@[simp] theorem ONode.queryList_cons (s : Sphere) (c cs) :
    ONode.queryList s (c :: cs) = c.query s ++ ONode.queryList s cs := by
  rw [ONode.queryList]

theorem ONode.mem_queryList {s : Sphere} {i : Item} {cs : List ONode} :
    i ∈ ONode.queryList s cs ↔ ∃ c ∈ cs, i ∈ c.query s := by
  induction cs with
  | nil => simp
  | cons c cs ih => simp [ih]

end Boids

namespace Boids

theorem ONode.query_eq_nil {s : Sphere} {b sub items count children}
    (h : b.intersectsSphere s = false) :
    (ONode.mk b sub items count children).query s = [] := by
  rw [ONode.query_mk]
  simp [h]

theorem ONode.query_eq_inside {s : Sphere} {b sub items count children}
    (h1 : b.intersectsSphere s = true) (h2 : aabbInsideSphere b s = true) :
    (ONode.mk b sub items count children).query s =
      (ONode.mk b sub items count children).getAllItems := by
  rw [ONode.query_mk]
  simp [h1, h2]

theorem ONode.query_eq_brute {s : Sphere} {b sub items count children}
    (h1 : b.intersectsSphere s = true) (h2 : aabbInsideSphere b s = false)
    (h3 : count < BRUTE_FORCE_THRESHOLD) :
    (ONode.mk b sub items count children).query s =
      ((ONode.mk b sub items count children).getAllItems).filter
        (fun i => s.containsPoint i.pos) := by
  rw [ONode.query_mk]
  simp [h1, h2, h3]

theorem ONode.query_eq_deep {s : Sphere} {b sub items count children}
    (h1 : b.intersectsSphere s = true) (h2 : aabbInsideSphere b s = false)
    (h3 : ¬ count < BRUTE_FORCE_THRESHOLD) :
    (ONode.mk b sub items count children).query s =
      items.filter (fun i => s.containsPoint i.pos) ++
        if sub then ONode.queryList s children else [] := by
  rw [ONode.query_mk]
  simp [h1, h2, h3]

/-- Octree query soundness: everything the query yields is stored in the
subtree. -/
theorem ONode.query_sound :
    ∀ n : ONode, ∀ {s : Sphere} {i : Item}, i ∈ n.query s → i ∈ n.allItems := by
  refine ONode.inductionOn _ ?_
  intro b sub items count children ih s i hmem
  rcases hI : b.intersectsSphere s with _ | _
  · rw [ONode.query_eq_nil hI] at hmem
    simp at hmem
  · rcases hF : aabbInsideSphere b s with _ | _
    · by_cases h3 : count < BRUTE_FORCE_THRESHOLD
      · rw [ONode.query_eq_brute hI hF h3] at hmem
        exact (ONode.getAllItems_sublist _).mem (List.mem_filter.1 hmem).1
      · rw [ONode.query_eq_deep hI hF h3] at hmem
        simp only [allItems_mk, List.mem_append]
        rcases List.mem_append.1 hmem with hl | hr
        · exact Or.inl (List.mem_filter.1 hl).1
        · rcases hsub : sub with _ | _
          · rw [hsub] at hr; simp at hr
          · rw [hsub] at hr; simp only [if_pos] at hr
            obtain ⟨c, hc, hq⟩ := ONode.mem_queryList.1 hr
            exact Or.inr (ONode.mem_allItemsList.2 ⟨c, hc, ih c hc hq⟩)
    · rw [ONode.query_eq_inside hI hF] at hmem
      exact (ONode.getAllItems_sublist _).mem hmem

/-- Octree query completeness: every stored item inside the sphere is yielded,
provided the tree is well-formed. -/
theorem ONode.query_complete :
    ∀ n : ONode, OWF n → ∀ {s : Sphere} {i : Item}, i ∈ n.allItems →
      s.containsPoint i.pos = true → i ∈ n.query s := by
  refine ONode.inductionOn _ ?_
  intro b sub items count children ih hwf s i hmem hs
  have hbp : b.containsPoint i.pos = true := hwf.hin i hmem
  have hI : b.intersectsSphere s = true := Box3.intersectsSphere_of_point hbp hs
  rcases hF : aabbInsideSphere b s with _ | _
  · by_cases h3 : count < BRUTE_FORCE_THRESHOLD
    · rw [ONode.query_eq_brute hI hF h3, ONode.getAllItems_eq_allItems _ hwf]
      exact List.mem_filter.2 ⟨hmem, hs⟩
    · rw [ONode.query_eq_deep hI hF h3]
      simp only [allItems_mk, List.mem_append] at hmem
      rcases hmem with hl | hr
      · exact List.mem_append.2 (Or.inl (List.mem_filter.2 ⟨hl, hs⟩))
      · obtain ⟨c, hc, hin⟩ := ONode.mem_allItemsList.1 hr
        have hsub : sub = true := by
          rcases hsubf : sub with _ | _
          · have : children = [] := hwf.hflag (by simp [hsubf])
            rw [this] at hc
            simp at hc
          · rfl
        refine List.mem_append.2 (Or.inr ?_)
        rw [if_pos hsub]
        exact ONode.mem_queryList.2 ⟨c, hc, ih c hc (hwf.hch c hc) hin hs⟩
  · rw [ONode.query_eq_inside hI hF, ONode.getAllItems_eq_allItems _ hwf]
    exact hmem

end Boids

namespace Boids

theorem ONode.insert_eq_guardFail {capacity maxDepth depth : ℕ} {item : Item}
    {b sub items count children} (h : b.containsPoint item.pos = false) :
    ONode.insert capacity maxDepth item depth (.mk b sub items count children) =
      (false, .mk b sub items count children) := by
  rw [ONode.insert]
  simp [h]

theorem ONode.insert_eq_bucket {capacity maxDepth depth : ℕ} {item : Item}
    {b sub items count children} (h : b.containsPoint item.pos = true)
    (hb : items.length < capacity ∨ maxDepth ≤ depth) :
    ONode.insert capacity maxDepth item depth (.mk b sub items count children) =
      (true, .mk b sub (items ++ [item]) (count + 1) children) := by
  rw [ONode.insert]
  simp [h, hb]

theorem ONode.insert_eq_deep {capacity maxDepth depth : ℕ} {item : Item}
    {b sub items count children} (h : b.containsPoint item.pos = true)
    (hb : ¬ (items.length < capacity ∨ maxDepth ≤ depth)) :
    ONode.insert capacity maxDepth item depth (.mk b sub items count children) =
      (let cs' := if sub then children else ONode.octantChildren b
       let r := ONode.insertList capacity maxDepth item (depth + 1) cs'
       (r.1, .mk b (if sub then sub else true) items
         (if r.1 then count + 1 else count) r.2)) := by
  rw [ONode.insert]
  rcases sub with _ | _ <;> simp [h, hb, ONode.subdivideNode]

@[simp] theorem ONode.insertList_nil {capacity maxDepth depth : ℕ} {item : Item} :
    ONode.insertList capacity maxDepth item depth [] = (false, []) := by
  rw [ONode.insertList]

theorem ONode.insertList_cons {capacity maxDepth depth : ℕ} {item : Item}
    {c : ONode} {cs : List ONode} :
    ONode.insertList capacity maxDepth item depth (c :: cs) =
      (let r := ONode.insert capacity maxDepth item depth c
       if r.1 then (true, r.2 :: cs)
       else
         let rs := ONode.insertList capacity maxDepth item depth cs
         (rs.1, r.2 :: rs.2)) := by
  rw [ONode.insertList]

/-- The capacity/depth invariant of the octree (C3): a node at structural
depth `d < maxDepth` holds at most `capacity` items in its own bucket. -/
inductive CapOk (capacity maxDepth : ℕ) : ℕ → ONode → Prop
  | intro (d b sub items count children)
      (hlen : d < maxDepth → items.length ≤ capacity)
      (hch : ∀ c ∈ children, CapOk capacity maxDepth (d + 1) c) :
      CapOk capacity maxDepth d (.mk b sub items count children)

theorem CapOk.hlen : ∀ {capacity maxDepth d : ℕ} {n : ONode},
    CapOk capacity maxDepth d n → d < maxDepth → n.items.length ≤ capacity
  | _, _, _, _, .intro _ _ _ _ _ _ hlen _ => hlen

theorem CapOk.hchC : ∀ {capacity maxDepth d : ℕ} {n : ONode},
    CapOk capacity maxDepth d n →
      ∀ c ∈ n.children, CapOk capacity maxDepth (d + 1) c
  | _, _, _, _, .intro _ _ _ _ _ _ _ hch => hch

theorem CapOk_octantChildren {capacity maxDepth d : ℕ} (b : Box3) :
    ∀ c ∈ ONode.octantChildren b, CapOk capacity maxDepth d c := by
  intro c hc
  simp only [ONode.octantChildren, List.mem_map] at hc
  obtain ⟨nc, _, rfl⟩ := hc
  exact .intro _ _ _ _ _ _ (fun _ => by simp) (by simp)

/-- Inserting preserves the capacity/depth invariant, at every capacity. -/
theorem ONode.insert_capOk (capacity maxDepth : ℕ) (item : Item) :
    ∀ (depth : ℕ) (n : ONode), CapOk capacity maxDepth depth n →
      CapOk capacity maxDepth depth
        (ONode.insert capacity maxDepth item depth n).2 := by
  have H := ONode.insert.mutual_induct capacity maxDepth item
    (fun depth n => CapOk capacity maxDepth depth n →
      CapOk capacity maxDepth depth
        (ONode.insert capacity maxDepth item depth n).2)
    (fun depth cs => (∀ c ∈ cs, CapOk capacity maxDepth depth c) →
      ∀ c ∈ (ONode.insertList capacity maxDepth item depth cs).2,
        CapOk capacity maxDepth depth c)
  refine (H ?_ ?_ ?_ ?_ ?_ ?_).1
  · -- guard fails
    intro depth b sub items count children hguard hcap
    rw [ONode.insert_eq_guardFail (by simpa using hguard)]
    exact hcap
  · -- bucket append
    intro depth b sub items count children hguard hb hcap
    rw [ONode.insert_eq_bucket (by simpa using hguard) hb]
    refine .intro _ _ _ _ _ _ ?_ hcap.hchC
    intro hd
    rcases hb with hlt | hge
    · simpa using hlt
    · omega
  · -- recurse into children
    intro depth b sub items count children hguard hb b' sub' items' count' children'
      hmatch ih hcap
    rw [ONode.insert_eq_deep (by simpa using hguard) hb]
    simp only
    have hch' : ∀ c ∈ (if sub then children else ONode.octantChildren b),
        CapOk capacity maxDepth (depth + 1) c := by
      rcases sub with _ | _
      · simpa using fun c hc => CapOk_octantChildren b c hc
      · simpa using hcap.hchC
    have hcs : (if sub then children else ONode.octantChildren b) = children' := by
      rcases sub with _ | _ <;>
        simpa [ONode.subdivideNode] using congrArg ONode.children hmatch
    rw [hcs] at hch' ⊢
    exact .intro _ _ _ _ _ _ (fun hd => hcap.hlen hd) (ih hch')
  · intro depth hcap c hc
    simp at hc
  · -- child insert succeeded
    intro depth c cs r hr ih hcap c' hc'
    replace hr : (ONode.insert capacity maxDepth item depth c).1 = true := hr
    rw [ONode.insertList_cons] at hc'
    simp only [hr, if_true] at hc'
    rcases List.mem_cons.1 hc' with rfl | htail
    · exact ih (hcap c (by simp))
    · exact hcap c' (by simp [htail])
  · -- child insert failed, keep going
    intro depth c cs r hr ih ihl hcap c' hc'
    replace hr : ¬ (ONode.insert capacity maxDepth item depth c).1 = true := hr
    rw [ONode.insertList_cons] at hc'
    simp only [Bool.not_eq_true] at hr
    simp only [hr, Bool.false_eq_true, if_false] at hc'
    rcases List.mem_cons.1 hc' with rfl | htail
    · exact ih (hcap c (by simp))
    · exact ihl (fun d hd => hcap d (by simp [hd])) c' htail

end Boids

namespace Boids

theorem ONode.allItemsList_eq_nil {cs : List ONode}
    (h : ∀ c ∈ cs, c.allItems = []) : ONode.allItemsList cs = [] := by
  induction cs with
  | nil => simp
  | cons c cs ih =>
    simp only [allItemsList_cons, List.append_eq_nil]
    exact ⟨h c (by simp), ih fun d hd => h d (by simp [hd])⟩

theorem ONode.allItemsList_octantChildren (b : Box3) :
    ONode.allItemsList (ONode.octantChildren b) = [] := by
  refine ONode.allItemsList_eq_nil ?_
  intro c hc
  simp only [ONode.octantChildren, List.mem_map] at hc
  obtain ⟨nc, _, rfl⟩ := hc
  simp

theorem OWF_octantChildren (b : Box3) :
    ∀ c ∈ ONode.octantChildren b, OWF c := by
  intro c hc
  simp only [ONode.octantChildren, List.mem_map] at hc
  obtain ⟨nc, _, rfl⟩ := hc
  exact .intro _ _ _ _ _ (by simp) (fun _ => rfl) (fun _ => by simp) (by simp)

/-- `insert` preserves well-formedness (for `capacity ≥ 1`), and its effect on
the stored contents is: a successful insert adds exactly the new item, a
failed insert leaves the contents unchanged. -/
theorem ONode.insert_owf (capacity maxDepth : ℕ) (item : Item)
    (hcap : 1 ≤ capacity) :
    ∀ (depth : ℕ) (n : ONode), OWF n →
      OWF (ONode.insert capacity maxDepth item depth n).2 ∧
      ((ONode.insert capacity maxDepth item depth n).1 = true →
        ((ONode.insert capacity maxDepth item depth n).2.allItems).Perm
          (item :: n.allItems)) ∧
      ((ONode.insert capacity maxDepth item depth n).1 = false →
        (ONode.insert capacity maxDepth item depth n).2.allItems = n.allItems) := by
  have H := ONode.insert.mutual_induct capacity maxDepth item
    (fun depth n => OWF n →
      OWF (ONode.insert capacity maxDepth item depth n).2 ∧
      ((ONode.insert capacity maxDepth item depth n).1 = true →
        ((ONode.insert capacity maxDepth item depth n).2.allItems).Perm
          (item :: n.allItems)) ∧
      ((ONode.insert capacity maxDepth item depth n).1 = false →
        (ONode.insert capacity maxDepth item depth n).2.allItems = n.allItems))
    (fun depth cs => (∀ c ∈ cs, OWF c) →
      (∀ c ∈ (ONode.insertList capacity maxDepth item depth cs).2, OWF c) ∧
      ((ONode.insertList capacity maxDepth item depth cs).1 = true →
        (ONode.allItemsList
          (ONode.insertList capacity maxDepth item depth cs).2).Perm
          (item :: ONode.allItemsList cs)) ∧
      ((ONode.insertList capacity maxDepth item depth cs).1 = false →
        ONode.allItemsList (ONode.insertList capacity maxDepth item depth cs).2 =
          ONode.allItemsList cs))
  refine (H ?_ ?_ ?_ ?_ ?_ ?_).1
  · -- guard fails: no mutation at all
    intro depth b sub items count children hguard hwf
    rw [ONode.insert_eq_guardFail (by simpa using hguard)]
    exact ⟨hwf, by simp, fun _ => rfl⟩
  · -- bucket append
    intro depth b sub items count children hguard hb hwf
    have hg : b.containsPoint item.pos = true := by simpa using hguard
    rw [ONode.insert_eq_bucket hg hb]
    refine ⟨?_, ?_, by simp⟩
    · refine .intro _ _ _ _ _ ?_ hwf.hflag (by simp) hwf.hch
      intro i hi
      simp only [allItems_mk, List.append_assoc, List.mem_append,
        List.mem_singleton] at hi
      rcases hi with hi | hi | hi
      · exact hwf.hin i (by simp [hi])
      · rw [hi]; exact hg
      · exact hwf.hin i (by simp [hi])
    · intro _
      simp only [allItems_mk, List.append_assoc, List.singleton_append]
      exact List.perm_middle
  · -- recurse into children
    intro depth b sub items count children hguard hb b' sub' items' count'
      children' hmatch ih hwf
    have hg : b.containsPoint item.pos = true := by simpa using hguard
    rw [ONode.insert_eq_deep hg hb]
    simp only
    have hcs : (if sub then children else ONode.octantChildren b) = children' := by
      rcases sub with _ | _ <;>
        simpa [ONode.subdivideNode] using congrArg ONode.children hmatch
    rw [hcs]
    have hitems : items ≠ [] := by
      intro hnil
      rw [hnil] at hb
      simp at hb
      omega
    have hwfcs : ∀ c ∈ children', OWF c := by
      rw [← hcs]
      rcases sub with _ | _
      · simpa using OWF_octantChildren b
      · simpa using hwf.hch
    obtain ⟨ihwf, ihperm, iheq⟩ := ih hwfcs
    -- contents of the pre-insert child list
    have hlist : ONode.allItemsList children' =
        if sub then ONode.allItemsList children else [] := by
      rw [← hcs]
      rcases sub with _ | _
      · simp [ONode.allItemsList_octantChildren]
      · simp
    have holdall : (ONode.mk b sub items count children).allItems =
        items ++ ONode.allItemsList children' := by
      rcases hsub : sub with _ | _
      · have : children = [] := hwf.hflag (by simp [hsub])
        rw [hsub] at hlist
        simp [this, hlist]
      · rw [hsub] at hlist
        simp [hlist]
    rcases hres : (ONode.insertList capacity maxDepth item (depth + 1) children').1
      with _ | _
    · -- child insertion failed
      have heq := iheq hres
      refine ⟨?_, by simp [hres], ?_⟩
      · refine .intro _ _ _ _ _ ?_ (by rcases sub with _ | _ <;> simp)
          (fun hnil => absurd hnil hitems) ihwf
        intro i hi
        simp only [allItems_mk, List.mem_append] at hi
        rcases hi with hi | hi
        · exact hwf.hin i (by simp [hi])
        · rw [heq] at hi
          exact hwf.hin i (by rw [holdall]; exact List.mem_append.2 (Or.inr hi))
      · intro _
        simp only [allItems_mk, hres]
        rw [heq, hlist]
        rcases hsub : sub with _ | _
        · have hemp : children = [] := hwf.hflag (by simp [hsub])
          simp [hemp]
        · simp
    · -- child insertion succeeded
      have hperm := ihperm hres
      refine ⟨?_, ?_, by simp [hres]⟩
      · refine .intro _ _ _ _ _ ?_ (by rcases sub with _ | _ <;> simp)
          (fun hnil => absurd hnil hitems) ihwf
        intro i hi
        simp only [allItems_mk, List.mem_append] at hi
        rcases hi with hi | hi
        · exact hwf.hin i (by simp [hi])
        · have hmm := hperm.mem_iff.1 hi
          rcases List.mem_cons.1 hmm with rfl | hold
          · exact hg
          · exact hwf.hin i
              (by rw [holdall]; exact List.mem_append.2 (Or.inr hold))
      · intro _
        simp only [allItems_mk, hres]
        refine ((hperm.append_left items).trans List.perm_middle).trans ?_
        rw [hlist]
        rcases hsub : sub with _ | _
        · have hemp : children = [] := hwf.hflag (by simp [hsub])
          simp [hemp]
        · simp
  · -- empty child list
    intro depth hwf
    refine ⟨by simp, by simp, by simp⟩
  · -- first child accepted the item
    intro depth c cs r hr ih hwf
    replace hr : (ONode.insert capacity maxDepth item depth c).1 = true := hr
    obtain ⟨ihwf, ihperm, _⟩ := ih (hwf c (by simp))
    rw [ONode.insertList_cons]
    simp only [hr, if_true]
    refine ⟨?_, ?_, by simp⟩
    · intro c' hc'
      rcases List.mem_cons.1 hc' with rfl | htail
      · exact ihwf
      · exact hwf c' (by simp [htail])
    · intro _
      simp only [allItemsList_cons]
      simpa using (ihperm hr).append_right (ONode.allItemsList cs)
  · -- first child rejected the item, try the rest
    intro depth c cs r hr ih ihl hwf
    replace hr : ¬ (ONode.insert capacity maxDepth item depth c).1 = true := hr
    rw [Bool.not_eq_true] at hr
    obtain ⟨ihwf, _, iheq⟩ := ih (hwf c (by simp))
    obtain ⟨ilwf, ilperm, ileq⟩ := ihl (fun d hd => hwf d (by simp [hd]))
    rw [ONode.insertList_cons]
    simp only [hr, Bool.false_eq_true, if_false]
    have hceq := iheq hr
    refine ⟨?_, ?_, ?_⟩
    · intro c' hc'
      rcases List.mem_cons.1 hc' with rfl | htail
      · exact ihwf
      · exact ilwf c' htail
    · intro hsucc
      simp only [allItemsList_cons, hceq]
      exact ((ilperm hsucc).append_left _).trans List.perm_middle
    · intro hfail
      simp only [allItemsList_cons, hceq, ileq hfail]

end Boids

namespace Boids

theorem OWF_clear (n : ONode) : OWF n.clear := by
  cases n with
  | mk b sub items count children =>
    exact .intro _ _ _ _ _ (by simp [ONode.clear]) (fun _ => rfl)
      (fun _ => by simp) (by simp [ONode.clear])

theorem CapOk_clear (capacity maxDepth d : ℕ) (n : ONode) :
    CapOk capacity maxDepth d n.clear := by
  cases n with
  | mk b sub items count children =>
    exact .intro _ _ _ _ _ _ (fun _ => by simp [ONode.clear]) (by simp [ONode.clear])

theorem OWF_mkOctree (b : Box3) (cap maxD : ℕ) : OWF (mkOctree b cap maxD).root :=
  .intro _ _ _ _ _ (by simp [mkOctree]) (fun _ => rfl) (fun _ => by simp)
    (by simp [mkOctree])

theorem CapOk_mkOctree (b : Box3) (cap maxD : ℕ) :
    CapOk cap maxD 0 (mkOctree b cap maxD).root :=
  .intro _ _ _ _ _ _ (fun _ => by simp [mkOctree]) (by simp [mkOctree])

@[simp] theorem runOp_nodeCapacity (o : Octree) (op : OctOp) :
    (o.runOp op).nodeCapacity = o.nodeCapacity := by
  cases op <;> rfl

@[simp] theorem runOp_maxDepth (o : Octree) (op : OctOp) :
    (o.runOp op).maxDepth = o.maxDepth := by
  cases op <;> rfl

theorem runOct_fields (b : Box3) (cap maxD : ℕ) (ops : List OctOp) :
    (runOct b cap maxD ops).nodeCapacity = cap ∧
      (runOct b cap maxD ops).maxDepth = maxD := by
  suffices h : ∀ (o : Octree) (ops : List OctOp),
      (ops.foldl Octree.runOp o).nodeCapacity = o.nodeCapacity ∧
      (ops.foldl Octree.runOp o).maxDepth = o.maxDepth by
    exact h _ ops
  intro o ops
  induction ops generalizing o with
  | nil => exact ⟨rfl, rfl⟩
  | cons op ops ih =>
    simp only [List.foldl_cons]
    obtain ⟨h1, h2⟩ := ih (o.runOp op)
    simp [h1, h2]

/-- Every octree reachable through the public operations is well-formed (for
`capacity ≥ 1`). -/
theorem runOct_owf (b : Box3) (cap maxD : ℕ) (ops : List OctOp)
    (hcap : 1 ≤ cap) : OWF (runOct b cap maxD ops).root := by
  suffices h : ∀ (o : Octree) (ops : List OctOp), 1 ≤ o.nodeCapacity →
      OWF o.root → OWF ((ops.foldl Octree.runOp o).root) by
    exact h _ ops (by simpa [mkOctree]) (OWF_mkOctree b cap maxD)
  intro o ops
  induction ops generalizing o with
  | nil => exact fun _ h => h
  | cons op ops ih =>
    intro hcap' howf
    simp only [List.foldl_cons]
    refine ih (o.runOp op) (by simpa) ?_
    cases op with
    | ins item =>
      exact (ONode.insert_owf o.nodeCapacity o.maxDepth item hcap' 0 o.root howf).1
    | clear => exact OWF_clear o.root

/-- C3: after any sequence of `insert` and `clear` operations, every node at
depth `< maxDepth` holds at most `nodeCapacity` items in its bucket. -/
theorem runOct_capOk (b : Box3) (cap maxD : ℕ) (ops : List OctOp) :
    CapOk cap maxD 0 (runOct b cap maxD ops).root := by
  suffices h : ∀ (o : Octree) (ops : List OctOp),
      CapOk o.nodeCapacity o.maxDepth 0 o.root →
      CapOk o.nodeCapacity o.maxDepth 0 ((ops.foldl Octree.runOp o).root) by
    have := h (mkOctree b cap maxD) ops (CapOk_mkOctree b cap maxD)
    simpa [mkOctree] using this
  intro o ops
  induction ops generalizing o with
  | nil => exact fun h => h
  | cons op ops ih =>
    intro hcap
    simp only [List.foldl_cons]
    have hstep : CapOk (o.runOp op).nodeCapacity (o.runOp op).maxDepth 0
        (o.runOp op).root := by
      cases op with
      | ins item =>
        simpa [Octree.runOp, Octree.insert] using
          ONode.insert_capOk o.nodeCapacity o.maxDepth item 0 o.root hcap
      | clear =>
        simpa [Octree.runOp, Octree.clear] using
          CapOk_clear o.nodeCapacity o.maxDepth 0 o.root
    have := ih (o.runOp op) hstep
    simpa using this

end Boids

namespace Boids

theorem ONode.queryList_subset {s : Sphere} {cs : List ONode} :
    ∀ i ∈ ONode.queryList s cs, i ∈ ONode.allItemsList cs := by
  intro i hi
  obtain ⟨c, hc, hq⟩ := ONode.mem_queryList.1 hi
  exact ONode.mem_allItemsList.2 ⟨c, hc, ONode.query_sound c hq⟩

theorem ONode.queryList_nodup {s : Sphere} (cs : List ONode)
    (ih : ∀ c ∈ cs, (c.allItems).Nodup → (c.query s).Nodup)
    (hnd : (ONode.allItemsList cs).Nodup) : (ONode.queryList s cs).Nodup := by
  induction cs with
  | nil => simp
  | cons c cs ihl =>
    simp only [allItemsList_cons, List.nodup_append] at hnd
    obtain ⟨h1, h2, h3⟩ := hnd
    simp only [queryList_cons, List.nodup_append]
    refine ⟨ih c (by simp) h1, ihl (fun d hd => ih d (by simp [hd])) h2, ?_⟩
    intro a ha
    have ha' := ONode.query_sound c ha
    intro hb
    exact h3 ha' (ONode.queryList_subset a hb)

/-- Octree query no-duplication: if the stored items are pairwise distinct,
no item is yielded twice in one query. -/
theorem ONode.query_nodup :
    ∀ n : ONode, ∀ {s : Sphere}, (n.allItems).Nodup → (n.query s).Nodup := by
  refine ONode.inductionOn _ ?_
  intro b sub items count children ih s hnd
  rcases hI : b.intersectsSphere s with _ | _
  · rw [ONode.query_eq_nil hI]
    simp
  · rcases hF : aabbInsideSphere b s with _ | _
    · by_cases h3 : count < BRUTE_FORCE_THRESHOLD
      · rw [ONode.query_eq_brute hI hF h3]
        exact ((hnd.sublist (ONode.getAllItems_sublist _)).filter _)
      · rw [ONode.query_eq_deep hI hF h3]
        simp only [allItems_mk, List.nodup_append] at hnd
        obtain ⟨h1, h2, h3'⟩ := hnd
        rcases hsub : sub with _ | _
        · simp only [Bool.false_eq_true, if_false, List.append_nil]
          exact h1.filter _
        · simp only [if_pos, List.nodup_append]
          refine ⟨h1.filter _, ONode.queryList_nodup children (fun c hc => ih c hc) h2, ?_⟩
          intro a ha hb
          exact h3' (List.mem_filter.1 ha).1 (ONode.queryList_subset a hb)
    · rw [ONode.query_eq_inside hI hF]
      exact hnd.sublist (ONode.getAllItems_sublist _)

/-- The contents of the root after a run: duplicate-free whenever the
inserted items are pairwise distinct (for `capacity ≥ 1`). -/
theorem runOct_contents (b : Box3) (cap maxD : ℕ) (ops : List OctOp)
    (hcap : 1 ≤ cap)
    (hnd : (ops.filterMap (fun op => match op with
      | .ins i => some i
      | .clear => none)).Nodup) :
    ((runOct b cap maxD ops).root.allItems).Nodup := by
  suffices h : ∀ (o : Octree) (ops : List OctOp), 1 ≤ o.nodeCapacity →
      OWF o.root →
      (ops.filterMap (fun op => match op with
        | OctOp.ins i => some i
        | OctOp.clear => none)).Nodup →
      (o.root.allItems).Nodup →
      (∀ i ∈ o.root.allItems, i ∉ ops.filterMap (fun op => match op with
        | OctOp.ins i => some i
        | OctOp.clear => none)) →
      (((ops.foldl Octree.runOp o).root).allItems).Nodup by
    refine h _ ops (by simpa [mkOctree]) (OWF_mkOctree b cap maxD) hnd
      (by simp [mkOctree]) (by simp [mkOctree])
  intro o ops
  induction ops generalizing o with
  | nil => exact fun _ _ _ h _ => h
  | cons op ops ih
  => cases op with
    | clear =>
      intro hcap' howf hnd' hroot hdisj
      simp only [List.foldl_cons]
      refine ih (o.clear) (by simpa [Octree.clear]) (OWF_clear o.root) ?_ ?_ ?_
      · simpa using hnd'
      · rcases hr : o.root with ⟨b', sub', items', count', children'⟩
        simp [Octree.runOp, Octree.clear, ONode.clear, hr]
      · intro i hi
        simp only [Octree.runOp, Octree.clear] at hi
        rcases hr : o.root with ⟨b', sub', items', count', children'⟩
        rw [hr] at hi
        simp [ONode.clear] at hi
    | ins item =>
      intro hcap' howf hnd' hroot hdisj
      simp only [List.filterMap_cons] at hnd'
      simp only [List.nodup_cons] at hnd'
      obtain ⟨hnotin, hnd''⟩ := hnd'
      simp only [List.foldl_cons]
      obtain ⟨howf', hperm, heqf⟩ :=
        ONode.insert_owf o.nodeCapacity o.maxDepth item hcap' 0 o.root howf
      rcases hres : (ONode.insert o.nodeCapacity o.maxDepth item 0 o.root).1
        with _ | _
      · -- failed insert: contents unchanged
        have heq := heqf hres
        refine ih (o.runOp (.ins item)) (by simpa [Octree.runOp, Octree.insert])
          (by simpa [Octree.runOp, Octree.insert] using howf') hnd'' ?_ ?_
        · simpa [Octree.runOp, Octree.insert, heq] using hroot
        · intro i hi
          simp only [Octree.runOp, Octree.insert] at hi
          rw [heq] at hi
          intro hmem
          exact hdisj i hi (by simp [hmem])
      · -- successful insert: the new item joins the contents
        have hpm := hperm hres
        have hnew : (((o.runOp (.ins item)).root).allItems).Nodup := by
          simp only [Octree.runOp, Octree.insert]
          refine hpm.nodup_iff.2 ?_
          refine List.nodup_cons.2 ⟨?_, hroot⟩
          intro hmem
          exact hdisj item hmem (by simp)
        refine ih (o.runOp (.ins item)) (by simpa [Octree.runOp, Octree.insert])
          (by simpa [Octree.runOp, Octree.insert] using howf') hnd'' hnew ?_
        intro i hi
        simp only [Octree.runOp, Octree.insert] at hi
        have hmm := hpm.mem_iff.1 hi
        rcases List.mem_cons.1 hmm with rfl | hold
        · exact hnotin
        · exact fun hmem => hdisj i hold (by simp [hmem])

end Boids

namespace Boids

/-! ## Binary BVH (`BinaryBvh.ts`)

The TS structure is a pointer tree: each `Node` holds an intrusive singly
linked list of items (`firstItem`/`lastItem`/`itemsCount`), two child
pointers and a parent back-reference; each item records its owner node and
its successor in the owner's list.  The embedding represents a node's list as
a `List Item` (`firstItem`/`lastItem`/`itemsCount` are its head, last element
and length; an item's `nextItem` is its successor in the list) and drops the
parent pointer, which exists only so that `remove` can walk upwards — the
recursion below performs the same walk on the way back up.  An item's
`ownerNode` is the unique node whose list contains it; `ownerNode == null`
corresponds to the item being in no list. -/

def MIN_LEAF_NODE_SIZE : ℕ := 16

inductive BNode where
  | mk (items : List Item) (left : Option BNode) (right : Option BNode)
       (bounds : Box3)
deriving Repr

namespace BNode

def items : BNode → List Item
  | mk i _ _ _ => i

def left : BNode → Option BNode
  | mk _ l _ _ => l

def right : BNode → Option BNode
  | mk _ _ r _ => r

def bounds : BNode → Box3
  | mk _ _ _ b => b

@[simp] theorem itemsB_mk (i l r b) : (mk i l r b).items = i := rfl

@[simp] theorem left_mk (i l r b) : (mk i l r b).left = l := rfl

@[simp] theorem right_mk (i l r b) : (mk i l r b).right = r := rfl

@[simp] theorem bounds_mk (i l r b) : (mk i l r b).bounds = b := rfl

/-- All items in a subtree, in `collapseInto`/pre-order: own list, then the
left subtree, then the right subtree. -/
def allItems : BNode → List Item
  | mk items l r _ =>
    items ++
      (match l with
       | none => []
       | some lc => lc.allItems) ++
      (match r with
       | none => []
       | some rc => rc.allItems)

@[simp] theorem allItemsB_mk (i l r b) :
    (mk i l r b).allItems =
      i ++
        (match l with
         | none => []
         | some lc => lc.allItems) ++
        (match r with
         | none => []
         | some rc => rc.allItems) := by
  rw [allItems.eq_def]

end BNode

/-- `Node.recalculateBounds`: seed a box from the first own item, extend it
with the rest (`min.min`/`max.max`), union in the bounds of the present
children, and keep the old bounds when there is nothing at all. -/
def recalcBounds (items : List Item) (l r : Option BNode) (old : Box3) : Box3 :=
  let nb : Option Box3 :=
    match items with
    | [] => none
    | i :: rest =>
      some (rest.foldl (fun bb j => ⟨bb.min.cmin j.pos, bb.max.cmax j.pos⟩)
        ⟨i.pos, i.pos⟩)
  let nb : Option Box3 :=
    match l with
    | none => nb
    | some lc =>
      match nb with
      | none => some lc.bounds
      | some bb => some ⟨bb.min.cmin lc.bounds.min, bb.max.cmax lc.bounds.max⟩
  let nb : Option Box3 :=
    match r with
    | none => nb
    | some rc =>
      match nb with
      | none => some rc.bounds
      | some bb => some ⟨bb.min.cmin rc.bounds.min, bb.max.cmax rc.bounds.max⟩
  match nb with
  | none => old
  | some bb => bb

/-- The slice dimension of `Node.subdivide`: the longest axis of the stored
bounds (ties prefer `x`, then `y`). -/
def subdivideDim (bounds : Box3) : Fin 3 :=
  let s := bounds.size
  if s.x ≥ s.y ∧ s.x ≥ s.z then 0
  else if s.y ≥ s.x ∧ s.y ≥ s.z then 1
  else 2

/-- The `new Node()` constructor initialises `_bounds` to the zero box. -/
def zeroBox : Box3 := ⟨⟨0, 0, 0⟩, ⟨0, 0, 0⟩⟩

/-- The mean-split partition of `Node.subdivide`: project the items on the
longest axis of the stored bounds, take the arithmetic mean as the split
plane, and partition the list by `< mean` (order-preserving, as the loop
appends to the two fresh children). -/
def bvhSplit (items : List Item) (bounds : Box3) : List Item × List Item :=
  let dim := subdivideDim bounds
  let middlePoint := (items.map (fun i => i.pos.get dim)).sum / items.length
  (items.filter (fun i => decide (i.pos.get dim < middlePoint)),
   items.filter (fun i => !decide (i.pos.get dim < middlePoint)))

theorem bvhSplit_append_perm (items : List Item) (bounds : Box3) :
    ((bvhSplit items bounds).1 ++ (bvhSplit items bounds).2).Perm items := by
  simp only [bvhSplit]
  exact List.filter_append_perm _ items

theorem bvhSplit_length (items : List Item) (bounds : Box3) :
    (bvhSplit items bounds).1.length + (bvhSplit items bounds).2.length =
      items.length := by
  have hp := (bvhSplit_append_perm items bounds).length_eq
  simpa using hp

/-- `Node.subdivide`, operating on a childless node's list and stored bounds
(the method asserts `leftNode == null && rightNode == null`; `rebuild` calls
it only after collapsing the whole tree into the root).

Returns the node unchanged (as a leaf) when it has fewer than
`3 * MIN_LEAF_NODE_SIZE` items; otherwise splits the list by comparison with
the arithmetic mean of the positions along the longest axis of the stored
bounds, and commits the two children — recomputing each child's tight bounds
and recursively subdividing them — only if both sides have at least
`MIN_LEAF_NODE_SIZE` items. A rolled-back split restores the list via two
`consumeList` calls, leaving the left partition followed by the right. -/
def subdivideList (items : List Item) (bounds : Box3) : BNode :=
  if items.length < 3 * MIN_LEAF_NODE_SIZE then .mk items none none bounds
  else
    if MIN_LEAF_NODE_SIZE ≤ (bvhSplit items bounds).1.length ∧
        MIN_LEAF_NODE_SIZE ≤ (bvhSplit items bounds).2.length then
      .mk []
        (some (subdivideList (bvhSplit items bounds).1
          (recalcBounds (bvhSplit items bounds).1 none none zeroBox)))
        (some (subdivideList (bvhSplit items bounds).2
          (recalcBounds (bvhSplit items bounds).2 none none zeroBox)))
        bounds
    else
      .mk ((bvhSplit items bounds).1 ++ (bvhSplit items bounds).2) none none bounds
termination_by items.length
decreasing_by
  · have h1 := bvhSplit_length items bounds
    have h2 : MIN_LEAF_NODE_SIZE = 16 := rfl
    omega
  · have h1 := bvhSplit_length items bounds
    have h2 : MIN_LEAF_NODE_SIZE = 16 := rfl
    omega

/-- The contents of a possibly-empty tree. -/
def treeItems (t : Option BNode) : List Item :=
  match t with
  | none => []
  | some root => root.allItems

/-- `BinaryBvh.insert`: no-op when the item is already owned by a node
(`itemData.ownerNode != null`; in this embedding, when it is threaded into
the tree); otherwise create the root from the single point or expand the
root's bounds, and append the item to the root's list. -/
def bvhInsert (t : Option BNode) (item : Item) : Option BNode :=
  if item ∈ treeItems t then t
  else
    match t with
    | none => some (.mk [item] none none ⟨item.pos, item.pos⟩)
    | some (.mk items l r bounds) =>
      some (.mk (items ++ [item]) l r
        ⟨bounds.min.cmin item.pos, bounds.max.cmax item.pos⟩)

/-- `BinaryBvh.rebuild`: collapse the whole tree into the root's list
(pre-order, keeping the root's stored bounds) and re-subdivide. -/
def bvhRebuild (t : Option BNode) : Option BNode :=
  match t with
  | none => none
  | some root => some (subdivideList root.allItems root.bounds)

end Boids

namespace Boids

/-- Outcome of the removal walk inside a subtree:
`notFound` — the item is owned by no node of this subtree (remove is a no-op);
`stopped n ok` — the walk terminated inside, yielding the updated subtree
`n`; `ok` records whether the `assert(currentNode.leftNode != null &&
currentNode.rightNode != null)` at the stop node held;
`pending items` — the subtree's root collapsed (it was childless and fell
below `MIN_LEAF_NODE_SIZE`): `items` is its remaining list, to be consumed by
the parent (`consumeList`) after which the walk continues there. -/
inductive RemRes where
  | notFound
  | stopped (n : BNode) (assertOk : Bool)
  | pending (items : List Item)
deriving Repr

/-- Stop the walk at a node: the assert is evaluated there, and
`recalculateBounds` recomputes its bounds from its own list and the stored
bounds of its remaining children. -/
def stopAt (items : List Item) (l r : Option BNode) (bounds : Box3) : RemRes :=
  .stopped (.mk items l r (recalcBounds items l r bounds))
    (l.isSome && r.isSome)

mutual

/-- The removal walk over an optional child: a missing child owns nothing. -/
def removeGoOpt (x : Item) : Option BNode → RemRes
  | none => .notFound
  | some n => removeGo x n

/-- The recursive core of `BinaryBvh.remove`.  In the source the owner node
is reached in O(1) through `itemData.ownerNode` and the walk then follows
parent pointers upward; here the recursion descends to the owner (own list
first, then left, then right) and performs the same collapse steps on the way
back up. The unlink loop removes every list entry equal to the item. -/
def removeGo (x : Item) : BNode → RemRes
  | .mk items l r bounds =>
    if x ∈ items then
      -- this node is the owner: unlink, then start the collapse walk here
      if l.isNone && r.isNone &&
          decide ((items.filter (fun i => !decide (i = x))).length <
            MIN_LEAF_NODE_SIZE)
      then .pending (items.filter (fun i => !decide (i = x)))
      else stopAt (items.filter (fun i => !decide (i = x))) l r bounds
    else
      match removeGoOpt x l with
      | .stopped lc' ok => .stopped (.mk items (some lc') r bounds) ok
      | .pending pitems =>
        -- `consumeList`: append the collapsed child's list, detach the child
        if r.isNone && decide ((items ++ pitems).length < MIN_LEAF_NODE_SIZE)
        then .pending (items ++ pitems)
        else stopAt (items ++ pitems) none r bounds
      | .notFound =>
        match removeGoOpt x r with
        | .stopped rc' ok => .stopped (.mk items l (some rc') bounds) ok
        | .pending pitems =>
          if l.isNone && decide ((items ++ pitems).length < MIN_LEAF_NODE_SIZE)
          then .pending (items ++ pitems)
          else stopAt (items ++ pitems) l none bounds
        | .notFound => .notFound

end

/-- `BinaryBvh.remove`.  A walk that reaches a childless root with an empty
list discards the whole tree; one that reaches a childless root with a
non-empty list keeps the root as a leaf and recomputes its bounds. -/
def bvhRemove (t : Option BNode) (x : Item) : Option BNode :=
  match t with
  | none => none
  | some root =>
    match removeGo x root with
    | .notFound => some root
    | .stopped n _ => some n
    | .pending items' =>
      if items'.length = 0 then none
      else some (.mk items' none none
        (recalcBounds items' none none root.bounds))

/-- Whether the debug assertion in `BinaryBvh.remove` — at the node where the
collapse walk stops, `leftNode != null && rightNode != null` — holds for this
removal.  (`true` when the assert is never reached: item unowned, or the tree
was discarded because the walk reached an empty childless root.) -/
def bvhRemoveAssertOk (t : Option BNode) (x : Item) : Bool :=
  match t with
  | none => true
  | some root =>
    match removeGo x root with
    | .notFound => true
    | .stopped _ ok => ok
    | .pending items' => items'.length = 0

/-- The successor of `x` in a node list (the value of `x.itemData.nextItem`
while `x` is threaded into that list). -/
def listSuccessor (x : Item) : List Item → Option Item
  | [] => none
  | a :: rest => if a = x then rest.head? else listSuccessor x rest

/-- The list of the node owning `x` (own list first, then left, then right —
unique under the no-duplicates invariant). -/
def findOwnerList (x : Item) : BNode → Option (List Item)
  | .mk items l r _ =>
    if x ∈ items then some items
    else
      match (match l with
            | none => none
            | some lc => findOwnerList x lc) with
      | some res => some res
      | none =>
        match r with
        | none => none
        | some rc => findOwnerList x rc

/-- The value of `x.itemData.nextItem` after `bvhRemove t x` returns, for an
item `x` owned by a node of `t`: the unlink loop in `remove` rewires the
owner's list around `x` and clears `x.itemData.ownerNode`, but never writes
`x.itemData.nextItem`, so the link keeps pointing at the successor `x` had in
the owner's list at removal time (`none` only if `x` was the last item). -/
def removedNextItem (t : Option BNode) (x : Item) : Option Item :=
  match t with
  | none => none
  | some root =>
    match findOwnerList x root with
    | none => none
    | some owner => listSuccessor x owner

end Boids

namespace Boids

/-- Push an optional child onto the traversal stack (`nodesToVisit.push`).
The head of the list is the top of the stack. -/
def optCons : Option BNode → List BNode → List BNode
  | none, st => st
  | some c, st => c :: st

theorem sizeOf_optCons (o : Option BNode) (st : List BNode) :
    sizeOf (optCons o st) ≤ sizeOf o + sizeOf st := by
  cases o <;> simp [optCons] <;> omega

/-- `BinaryBvh.getAllItems`: the explicit-stack traversal.  Each iteration
pops the top node, pushes its left then its right child (so the right child
is processed first) and yields the node's own list. -/
def stackItems : List BNode → List Item
  | [] => []
  | .mk items l r _ :: rest =>
    items ++ stackItems (optCons r (optCons l rest))
termination_by st => sizeOf st
decreasing_by
  have h1 := sizeOf_optCons r (optCons l rest)
  have h2 := sizeOf_optCons l rest
  simp only [List.cons.sizeOf_spec, BNode.mk.sizeOf_spec]
  omega

/-- `BinaryBvh.queryItemsFromSphere`: the explicit-stack traversal.  Skip a
node whose bounds miss the sphere; on the `aabbInsideSphere` fast path yield
the whole subtree (via the stack walk) without exact checks; otherwise check
the node's own list exactly and push the children. -/
def queryStack (s : Sphere) : List BNode → List Item
  | [] => []
  | .mk items l r bounds :: rest =>
    if ¬ bounds.intersectsSphere s then queryStack s rest
    else if aabbInsideSphere bounds s then
      stackItems [.mk items l r bounds] ++ queryStack s rest
    else
      items.filter (fun i => s.containsPoint i.pos) ++
        queryStack s (optCons r (optCons l rest))
termination_by st => sizeOf st
decreasing_by
  · simp only [List.cons.sizeOf_spec, BNode.mk.sizeOf_spec]
    omega
  · simp only [List.cons.sizeOf_spec, BNode.mk.sizeOf_spec]
    omega
  · have h1 := sizeOf_optCons r (optCons l rest)
    have h2 := sizeOf_optCons l rest
    simp only [List.cons.sizeOf_spec, BNode.mk.sizeOf_spec]
    omega

/-- `BinaryBvh.queryItemsFromSphere` on the whole structure: an empty index
visits nothing. -/
def bvhQuery (t : Option BNode) (s : Sphere) : List Item :=
  match t with
  | none => []
  | some root => queryStack s [root]

/-- `BinaryBvh.clear`. -/
def bvhClear (_ : Option BNode) : Option BNode := none

/-- A public operation on the Binary BVH. -/
inductive BvhOp where
  | ins (item : Item)
  | rem (item : Item)
  | rebuild
deriving DecidableEq, Repr

def bvhRunOp (t : Option BNode) : BvhOp → Option BNode
  | .ins item => bvhInsert t item
  | .rem item => bvhRemove t item
  | .rebuild => bvhRebuild t

/-- A sequence of public operations applied to a fresh (empty) index. -/
def bvhRun (ops : List BvhOp) : Option BNode :=
  ops.foldl bvhRunOp none

end Boids

namespace Boids

/-- Concatenated subtree contents of a traversal stack. -/
def stackAll : List BNode → List Item
  | [] => []
  | n :: rest => n.allItems ++ stackAll rest

@[simp] theorem stackAll_nil : stackAll [] = [] := rfl

@[simp] theorem stackAll_cons (n rest) :
    stackAll (n :: rest) = n.allItems ++ stackAll rest := rfl

/-- Contents of an optional subtree. -/
def optItems : Option BNode → List Item
  | none => []
  | some c => c.allItems

@[simp] theorem optItems_none : optItems none = [] := rfl

@[simp] theorem optItems_some (c : BNode) : optItems (some c) = c.allItems := rfl

theorem BNode.allItems_eq (i l r b) :
    (BNode.mk i l r b).allItems = i ++ optItems l ++ optItems r := by
  rw [BNode.allItemsB_mk]
  cases l <;> cases r <;> rfl

theorem stackAll_optCons (o : Option BNode) (st : List BNode) :
    stackAll (optCons o st) = optItems o ++ stackAll st := by
  cases o <;> simp [optCons]

theorem stackItems_perm : ∀ st : List BNode, (stackItems st).Perm (stackAll st) := by
  refine stackItems.induct _ (by rw [stackItems]; simp) ?_
  intro items l r bounds rest ih
  rw [stackItems]
  refine (ih.append_left items).trans ?_
  rw [stackAll_optCons, stackAll_optCons]
  simp only [stackAll_cons, BNode.allItems_eq]
  have hswap := @List.perm_append_comm Item (optItems r) (optItems l)
  have h2 := (hswap.append_right (stackAll rest)).append_left items
  simpa [List.append_assoc] using h2

end Boids

namespace Boids

/-- Bounds well-formedness of a BVH subtree: every item of the subtree lies
inside the node's stored bounds (which the code maintains: bounds only expand
on insert, children get tight recomputed bounds on subdivide, and the stop
node of a removal walk is recomputed from its list and children). -/
inductive BWF : BNode → Prop
  | intro (items l r bounds)
      (hin : ∀ i ∈ (BNode.mk items l r bounds).allItems,
        Box3.containsPoint bounds i.pos = true)
      (hl : ∀ lc, l = some lc → BWF lc)
      (hr : ∀ rc, r = some rc → BWF rc) :
      BWF (.mk items l r bounds)

theorem BWF.hinB : ∀ {n : BNode}, BWF n →
    ∀ i ∈ n.allItems, Box3.containsPoint n.bounds i.pos = true
  | _, .intro _ _ _ _ hin _ _ => hin

theorem BWF.hlB : ∀ {n : BNode}, BWF n → ∀ lc, n.left = some lc → BWF lc
  | _, .intro _ _ _ _ _ hl _ => hl

theorem BWF.hrB : ∀ {n : BNode}, BWF n → ∀ rc, n.right = some rc → BWF rc
  | _, .intro _ _ _ _ _ _ hr => hr

theorem mem_stackAll {i : Item} {st : List BNode} :
    i ∈ stackAll st ↔ ∃ n ∈ st, i ∈ n.allItems := by
  induction st with
  | nil => simp
  | cons n rest ih => simp [ih]

/-- BVH query soundness: everything yielded is stored in some stack node. -/
theorem queryStack_sound (s : Sphere) :
    ∀ st : List BNode, ∀ i ∈ queryStack s st, i ∈ stackAll st := by
  refine queryStack.induct s _ (by simp [queryStack]) ?_ ?_ ?_
  · intro items l r bounds rest hmiss ih i hi
    rw [queryStack] at hi
    rw [if_pos hmiss] at hi
    simp only [stackAll_cons, List.mem_append]
    exact Or.inr (ih i hi)
  · intro items l r bounds rest hint hins ih i hi
    rw [queryStack] at hi
    rw [if_neg hint, if_pos hins] at hi
    simp only [stackAll_cons, List.mem_append]
    rcases List.mem_append.1 hi with hl | hr
    · have := (stackItems_perm _).mem_iff.1 hl
      simp only [stackAll_cons, stackAll_nil, List.append_nil] at this
      exact Or.inl this
    · exact Or.inr (ih i hr)
  · intro items l r bounds rest hint hins ih i hi
    rw [queryStack] at hi
    rw [if_neg hint, if_neg hins] at hi
    simp only [stackAll_cons, List.mem_append, BNode.allItems_eq]
    rcases List.mem_append.1 hi with hl | hr
    · exact Or.inl (by simp [(List.mem_filter.1 hl).1])
    · have := ih i hr
      rw [stackAll_optCons, stackAll_optCons] at this
      simp only [List.mem_append] at this
      rcases this with h | h | h
      · exact Or.inl (by simp [h])
      · exact Or.inl (by simp [h])
      · exact Or.inr h

/-- BVH query completeness: every stored item within the sphere is yielded,
given bounds well-formedness of every stack node. -/
theorem queryStack_complete (s : Sphere) :
    ∀ st : List BNode, (∀ n ∈ st, BWF n) →
      ∀ i ∈ stackAll st, s.containsPoint i.pos = true → i ∈ queryStack s st := by
  refine queryStack.induct s _ (by simp) ?_ ?_ ?_
  · intro items l r bounds rest hmiss ih hwf i hi hs
    rw [queryStack, if_pos hmiss]
    simp only [stackAll_cons, List.mem_append] at hi
    rcases hi with hi | hi
    · exfalso
      have hbwf := hwf (BNode.mk items l r bounds) (List.mem_cons_self _ _)
      have hbp := hbwf.hinB i hi
      simp only [BNode.bounds_mk] at hbp
      exact hmiss (by simpa using Box3.intersectsSphere_of_point hbp hs)
    · exact ih (fun n hn => hwf n (by simp [hn])) i hi hs
  · intro items l r bounds rest hint hins ih hwf i hi hs
    rw [queryStack, if_neg hint, if_pos hins]
    simp only [stackAll_cons, List.mem_append] at hi
    rcases hi with hi | hi
    · refine List.mem_append.2 (Or.inl ?_)
      refine (stackItems_perm _).mem_iff.2 ?_
      simpa using hi
    · exact List.mem_append.2 (Or.inr (ih (fun n hn => hwf n (by simp [hn])) i hi hs))
  · intro items l r bounds rest hint hins ih hwf i hi hs
    rw [queryStack, if_neg hint, if_neg hins]
    simp only [stackAll_cons, BNode.allItems_eq, List.append_assoc,
      List.mem_append] at hi
    have hwfn := hwf _ (List.mem_cons_self _ _)
    rcases hi with hi | hi | hi | hi
    · exact List.mem_append.2 (Or.inl (List.mem_filter.2 ⟨hi, hs⟩))
    · refine List.mem_append.2 (Or.inr ?_)
      refine ih ?_ i ?_ hs
      · intro n hn
        rcases l with _ | lc
        · rcases r with _ | rc
          · simp [optCons] at hn
            exact hwf n (by simp [hn])
          · simp [optCons] at hn
            rcases hn with rfl | hn
            · exact hwfn.hrB n rfl
            · exact hwf n (by simp [hn])
        · rcases r with _ | rc
          · simp [optCons] at hn
            rcases hn with rfl | hn
            · exact hwfn.hlB n rfl
            · exact hwf n (by simp [hn])
          · simp [optCons] at hn
            rcases hn with rfl | rfl | hn
            · exact hwfn.hrB n rfl
            · exact hwfn.hlB n rfl
            · exact hwf n (by simp [hn])
      · rw [stackAll_optCons, stackAll_optCons]
        simp only [List.mem_append]
        rcases l with _ | lc
        · simp at hi
        · exact Or.inr (Or.inl (by simpa using hi))
    · refine List.mem_append.2 (Or.inr ?_)
      refine ih ?_ i ?_ hs
      · intro n hn
        rcases l with _ | lc
        · rcases r with _ | rc
          · simp [optCons] at hn
            exact hwf n (by simp [hn])
          · simp [optCons] at hn
            rcases hn with rfl | hn
            · exact hwfn.hrB n rfl
            · exact hwf n (by simp [hn])
        · rcases r with _ | rc
          · simp [optCons] at hn
            rcases hn with rfl | hn
            · exact hwfn.hlB n rfl
            · exact hwf n (by simp [hn])
          · simp [optCons] at hn
            rcases hn with rfl | rfl | hn
            · exact hwfn.hrB n rfl
            · exact hwfn.hlB n rfl
            · exact hwf n (by simp [hn])
      · rw [stackAll_optCons, stackAll_optCons]
        simp only [List.mem_append]
        rcases r with _ | rc
        · simp at hi
        · exact Or.inl (by simpa using hi)
    · refine List.mem_append.2 (Or.inr ?_)
      refine ih ?_ i ?_ hs
      · intro n hn
        rcases l with _ | lc
        · rcases r with _ | rc
          · simp [optCons] at hn
            exact hwf n (by simp [hn])
          · simp [optCons] at hn
            rcases hn with rfl | hn
            · exact hwfn.hrB n rfl
            · exact hwf n (by simp [hn])
        · rcases r with _ | rc
          · simp [optCons] at hn
            rcases hn with rfl | hn
            · exact hwfn.hlB n rfl
            · exact hwf n (by simp [hn])
          · simp [optCons] at hn
            rcases hn with rfl | rfl | hn
            · exact hwfn.hrB n rfl
            · exact hwfn.hlB n rfl
            · exact hwf n (by simp [hn])
      · rw [stackAll_optCons, stackAll_optCons]
        simp only [List.mem_append]
        exact Or.inr (Or.inr hi)

end Boids

namespace Boids

theorem stackAll_optCons_perm (l r : Option BNode) (rest : List BNode) :
    (stackAll (optCons r (optCons l rest))).Perm
      (optItems l ++ optItems r ++ stackAll rest) := by
  rw [stackAll_optCons, stackAll_optCons]
  have h := (@List.perm_append_comm Item (optItems r) (optItems l)).append_right
    (stackAll rest)
  simpa [List.append_assoc] using h

/-- BVH query no-duplication: with pairwise-distinct stored items, no item is
yielded twice in one query. -/
theorem queryStack_nodup (s : Sphere) :
    ∀ st : List BNode, (stackAll st).Nodup → (queryStack s st).Nodup := by
  refine queryStack.induct s _ (by simp [queryStack]) ?_ ?_ ?_
  · intro items l r bounds rest hmiss ih hnd
    rw [queryStack, if_pos hmiss]
    simp only [stackAll_cons, List.nodup_append] at hnd
    exact ih hnd.2.1
  · intro items l r bounds rest hint hins ih hnd
    rw [queryStack, if_neg hint, if_pos hins]
    simp only [stackAll_cons, List.nodup_append] at hnd
    obtain ⟨h1, h2, h3⟩ := hnd
    refine List.nodup_append.2 ⟨?_, ih h2, ?_⟩
    · refine ((stackItems_perm _).nodup_iff).2 ?_
      simpa using h1
    · intro a ha hb
      have ha' := (stackItems_perm _).mem_iff.1 ha
      simp only [stackAll_cons, stackAll_nil, List.append_nil] at ha'
      exact h3 ha' (queryStack_sound s rest a hb)
  · intro items l r bounds rest hint hins ih hnd
    rw [queryStack, if_neg hint, if_neg hins]
    simp only [stackAll_cons, BNode.allItems_eq, List.append_assoc,
      List.nodup_append] at hnd
    obtain ⟨h1, h2, h3⟩ := hnd
    have hsub : (stackAll (optCons r (optCons l rest))).Nodup := by
      refine (stackAll_optCons_perm l r rest).nodup_iff.2 ?_
      simpa [List.nodup_append] using h2
    refine List.nodup_append.2 ⟨h1.filter _, ih hsub, ?_⟩
    intro a ha hb
    have ha' := (List.mem_filter.1 ha).1
    have hb' := queryStack_sound s _ a hb
    have hb'' := (stackAll_optCons_perm l r rest).mem_iff.1 hb'
    exact h3 ha' (by simpa [List.append_assoc] using hb'')

end Boids

namespace Boids

/-- Structural induction for `BNode` through the optional children. -/
theorem BNode.inductionB (motive : BNode → Prop)
    (h : ∀ items l r bounds,
      (∀ c, l = some c → motive c) → (∀ c, r = some c → motive c) →
      motive (.mk items l r bounds)) :
    ∀ n, motive n
  | .mk items l r bounds =>
    h items l r bounds
      (fun c hc =>
        have : sizeOf c < sizeOf (BNode.mk items l r bounds) := by
          cases l with
          | none => simp at hc
          | some lc =>
            cases hc
            simp only [BNode.mk.sizeOf_spec, Option.some.sizeOf_spec]
            omega
        BNode.inductionB motive h c)
      (fun c hc =>
        have : sizeOf c < sizeOf (BNode.mk items l r bounds) := by
          cases r with
          | none => simp at hc
          | some rc =>
            cases hc
            simp only [BNode.mk.sizeOf_spec, Option.some.sizeOf_spec]
            omega
        BNode.inductionB motive h c)
termination_by n => sizeOf n

/-- Every leaf of this subtree (the subtree's root included) holds at least
`MIN_LEAF_NODE_SIZE` items. -/
inductive LeafMin : BNode → Prop
  | intro (items l r bounds)
      (hleaf : l = none → r = none → MIN_LEAF_NODE_SIZE ≤ items.length)
      (hl : ∀ lc, l = some lc → LeafMin lc)
      (hr : ∀ rc, r = some rc → LeafMin rc) :
      LeafMin (.mk items l r bounds)

theorem LeafMin.hleaf : ∀ {n : BNode}, LeafMin n →
    n.left = none → n.right = none → MIN_LEAF_NODE_SIZE ≤ n.items.length
  | _, .intro _ _ _ _ hleaf _ _ => hleaf

theorem LeafMin.hl : ∀ {n : BNode}, LeafMin n → ∀ lc, n.left = some lc → LeafMin lc
  | _, .intro _ _ _ _ _ hl _ => hl

theorem LeafMin.hr : ∀ {n : BNode}, LeafMin n → ∀ rc, n.right = some rc → LeafMin rc
  | _, .intro _ _ _ _ _ _ hr => hr

/-- The root-exempt form of the minimum-leaf invariant: both direct child
subtrees (when present) satisfy `LeafMin`; the root itself is exempt. -/
def ChildrenLM (n : BNode) : Prop :=
  (∀ lc, n.left = some lc → LeafMin lc) ∧ (∀ rc, n.right = some rc → LeafMin rc)

theorem LeafMin.childrenLM {n : BNode} (h : LeafMin n) : ChildrenLM n :=
  ⟨h.hl, h.hr⟩

/-- A subtree whose every leaf has at least `MIN_LEAF_NODE_SIZE > 0` items is
non-empty. -/
theorem LeafMin.allItems_ne_nil : ∀ {n : BNode}, LeafMin n → n.allItems ≠ [] := by
  have key : ∀ n : BNode, LeafMin n → n.allItems ≠ [] := by
    refine BNode.inductionB _ ?_
    intro items l r bounds ihl ihr hlm
    rw [BNode.allItems_eq]
    rcases l with _ | lc
    · rcases r with _ | rc
      · have := hlm.hleaf rfl rfl
        have h16 : MIN_LEAF_NODE_SIZE = 16 := rfl
        intro hnil
        simp only [optItems_none, List.append_nil] at hnil
        rw [hnil] at this
        simp [h16] at this
      · have hne := ihr rc rfl (hlm.hr rc rfl)
        simp only [optItems_some, optItems_none]
        intro hnil
        rcases List.append_eq_nil.1 hnil with ⟨h1, h2⟩
        rcases List.append_eq_nil.1 h1 with ⟨_, h3⟩
        exact absurd (by simp [h3, h2]) hne
    · have hne := ihl lc rfl (hlm.hl lc rfl)
      simp only [optItems_some]
      intro hnil
      rcases List.append_eq_nil.1 hnil with ⟨h1, _⟩
      rcases List.append_eq_nil.1 h1 with ⟨_, h3⟩
      exact absurd h3 hne
  exact fun {n} => key n

/-- Subdivision permutes the contents: nothing is lost or duplicated. -/
theorem subdivide_perm :
    ∀ (items : List Item) (bounds : Box3),
      ((subdivideList items bounds).allItems).Perm items := by
  refine subdivideList.induct _ ?_ ?_ ?_
  · intro items bounds hlt
    rw [subdivideList, if_pos hlt]
    simp
  · intro items bounds hge hcommit ihl ihr
    rw [subdivideList, if_neg hge, if_pos hcommit]
    simp only [BNode.allItems_eq, optItems_some, List.nil_append]
    refine ((ihl.append ihr).trans (bvhSplit_append_perm items bounds))
  · intro items bounds hge hfail
    rw [subdivideList, if_neg hge, if_neg hfail]
    simp only [BNode.allItems_eq, optItems_none, List.append_nil]
    exact bvhSplit_append_perm items bounds

/-- After subdivision every leaf holds at least `MIN_LEAF_NODE_SIZE` items,
provided the starting list does. -/
theorem subdivide_leafMin :
    ∀ (items : List Item) (bounds : Box3),
      MIN_LEAF_NODE_SIZE ≤ items.length →
      LeafMin (subdivideList items bounds) := by
  refine subdivideList.induct _ ?_ ?_ ?_
  · intro items bounds hlt hmin
    rw [subdivideList, if_pos hlt]
    exact .intro _ _ _ _ (fun _ _ => hmin) (by simp) (by simp)
  · intro items bounds hge hcommit ihl ihr hmin
    rw [subdivideList, if_neg hge, if_pos hcommit]
    refine .intro _ _ _ _ (by simp) ?_ ?_
    · intro lc hlc
      cases hlc
      exact ihl hcommit.1
    · intro rc hrc
      cases hrc
      exact ihr hcommit.2
  · intro items bounds hge hfail hmin
    rw [subdivideList, if_neg hge, if_neg hfail]
    refine .intro _ _ _ _ ?_ (by simp) (by simp)
    intro _ _
    have := bvhSplit_length items bounds
    simp only [List.length_append]
    omega

/-- The direct children of a subdivided node (when the split commits) satisfy
the full minimum-leaf invariant, whatever the starting list size. -/
theorem subdivide_childrenLM :
    ∀ (items : List Item) (bounds : Box3),
      ChildrenLM (subdivideList items bounds) := by
  refine subdivideList.induct _ ?_ ?_ ?_
  · intro items bounds hlt
    rw [subdivideList, if_pos hlt]
    exact ⟨by simp, by simp⟩
  · intro items bounds hge hcommit ihl ihr
    rw [subdivideList, if_neg hge, if_pos hcommit]
    constructor
    · intro lc hlc
      simp only [BNode.left_mk] at hlc
      cases hlc
      exact subdivide_leafMin _ _ hcommit.1
    · intro rc hrc
      simp only [BNode.right_mk] at hrc
      cases hrc
      exact subdivide_leafMin _ _ hcommit.2
  · intro items bounds hge hfail
    rw [subdivideList, if_neg hge, if_neg hfail]
    exact ⟨by simp, by simp⟩

end Boids

namespace Boids

theorem containsPoint_cmin_cmax_left {a b : Vec3} (a' b' : Vec3) {p : Vec3}
    (h : Box3.containsPoint ⟨a, b⟩ p = true) :
    Box3.containsPoint ⟨a.cmin a', b.cmax b'⟩ p = true := by
  rw [Box3.containsPoint_iff] at h ⊢
  simp only [Vec3.cmin, Vec3.cmax] at *
  obtain ⟨h1, h2, h3, h4, h5, h6⟩ := h
  refine ⟨le_trans (min_le_left _ _) h1, le_trans h2 (le_max_left _ _),
    le_trans (min_le_left _ _) h3, le_trans h4 (le_max_left _ _),
    le_trans (min_le_left _ _) h5, le_trans h6 (le_max_left _ _)⟩

theorem containsPoint_cmin_cmax_right {a' b' : Vec3} (a b : Vec3) {p : Vec3}
    (h : Box3.containsPoint ⟨a', b'⟩ p = true) :
    Box3.containsPoint ⟨a.cmin a', b.cmax b'⟩ p = true := by
  rw [Box3.containsPoint_iff] at h ⊢
  simp only [Vec3.cmin, Vec3.cmax] at *
  obtain ⟨h1, h2, h3, h4, h5, h6⟩ := h
  refine ⟨le_trans (min_le_right _ _) h1, le_trans h2 (le_max_right _ _),
    le_trans (min_le_right _ _) h3, le_trans h4 (le_max_right _ _),
    le_trans (min_le_right _ _) h5, le_trans h6 (le_max_right _ _)⟩

theorem containsPoint_point (p : Vec3) :
    Box3.containsPoint ⟨p, p⟩ p = true := by
  rw [Box3.containsPoint_iff]
  exact ⟨le_refl _, le_refl _, le_refl _, le_refl _, le_refl _, le_refl _⟩

/-- The `min.min`/`max.max` fold of `recalculateBounds` keeps whatever the
seed box contains and adds every folded position. -/
theorem foldBox_contains (rest : List Item) :
    ∀ (start : Box3),
      (∀ p, Box3.containsPoint start p = true →
        Box3.containsPoint
          (rest.foldl (fun bb j => ⟨bb.min.cmin j.pos, bb.max.cmax j.pos⟩) start)
          p = true) ∧
      (∀ j ∈ rest,
        Box3.containsPoint
          (rest.foldl (fun bb j => ⟨bb.min.cmin j.pos, bb.max.cmax j.pos⟩) start)
          j.pos = true) := by
  induction rest with
  | nil => exact fun start => ⟨fun p h => h, by simp⟩
  | cons j rest ih =>
    intro start
    simp only [List.foldl_cons]
    constructor
    · intro p hp
      refine (ih _).1 p ?_
      rcases start with ⟨a, b⟩
      exact containsPoint_cmin_cmax_left _ _ hp
    · intro k hk
      rcases List.mem_cons.1 hk with rfl | hk
      · refine (ih _).1 k.pos ?_
        rcases start with ⟨a, b⟩
        exact containsPoint_cmin_cmax_right _ _ (containsPoint_point k.pos)
      · exact (ih _).2 k hk

theorem containsPoint_unionBox_left {bb : Box3} (c : Box3) {p : Vec3}
    (h : Box3.containsPoint bb p = true) :
    Box3.containsPoint ⟨bb.min.cmin c.min, bb.max.cmax c.max⟩ p = true :=
  containsPoint_cmin_cmax_left c.min c.max h

theorem containsPoint_unionBox_right (bb : Box3) {c : Box3} {p : Vec3}
    (h : Box3.containsPoint c p = true) :
    Box3.containsPoint ⟨bb.min.cmin c.min, bb.max.cmax c.max⟩ p = true :=
  containsPoint_cmin_cmax_right bb.min bb.max h

/-- `recalculateBounds` covers the node's own items and everything inside the
stored bounds of the present children. -/
theorem recalcBounds_covers (items : List Item) (l r : Option BNode) (old : Box3) :
    (∀ i ∈ items, Box3.containsPoint (recalcBounds items l r old) i.pos = true) ∧
    (∀ lc, l = some lc → ∀ p, Box3.containsPoint lc.bounds p = true →
      Box3.containsPoint (recalcBounds items l r old) p = true) ∧
    (∀ rc, r = some rc → ∀ p, Box3.containsPoint rc.bounds p = true →
      Box3.containsPoint (recalcBounds items l r old) p = true) := by
  have hfold : ∀ (i : Item) (rest : List Item) (j : Item), j ∈ i :: rest →
      Box3.containsPoint
        (rest.foldl (fun bb j => ⟨bb.min.cmin j.pos, bb.max.cmax j.pos⟩)
          ⟨i.pos, i.pos⟩) j.pos = true := by
    intro i rest j hj
    rcases List.mem_cons.1 hj with rfl | hj
    · exact (foldBox_contains rest _).1 _ (containsPoint_point j.pos)
    · exact (foldBox_contains rest _).2 j hj
  rcases items with _ | ⟨i, rest⟩ <;> rcases l with _ | lc <;> rcases r with _ | rc
  · exact ⟨by simp, by simp, by simp⟩
  · refine ⟨by simp, by simp, ?_⟩
    intro rc' hrc p hp
    cases hrc
    simpa [recalcBounds] using hp
  · refine ⟨by simp, ?_, by simp⟩
    intro lc' hlc p hp
    cases hlc
    simpa [recalcBounds] using hp
  · refine ⟨by simp, ?_, ?_⟩
    · intro lc' hlc p hp
      cases hlc
      simp only [recalcBounds]
      exact containsPoint_unionBox_left _ hp
    · intro rc' hrc p hp
      cases hrc
      simp only [recalcBounds]
      exact containsPoint_unionBox_right _ hp
  · refine ⟨?_, by simp, by simp⟩
    intro j hj
    simp only [recalcBounds]
    exact hfold i rest j hj
  · refine ⟨?_, by simp, ?_⟩
    · intro j hj
      simp only [recalcBounds]
      exact containsPoint_cmin_cmax_left rc.bounds.min rc.bounds.max
        (hfold i rest j hj)
    · intro rc' hrc p hp
      cases hrc
      simp only [recalcBounds]
      exact containsPoint_cmin_cmax_right _ _ hp
  · refine ⟨?_, ?_, by simp⟩
    · intro j hj
      simp only [recalcBounds]
      exact containsPoint_cmin_cmax_left lc.bounds.min lc.bounds.max
        (hfold i rest j hj)
    · intro lc' hlc p hp
      cases hlc
      simp only [recalcBounds]
      exact containsPoint_cmin_cmax_right _ _ hp
  · refine ⟨?_, ?_, ?_⟩
    · intro j hj
      simp only [recalcBounds]
      exact containsPoint_cmin_cmax_left rc.bounds.min rc.bounds.max
        (containsPoint_cmin_cmax_left lc.bounds.min lc.bounds.max
          (hfold i rest j hj))
    · intro lc' hlc p hp
      cases hlc
      simp only [recalcBounds]
      exact containsPoint_cmin_cmax_left rc.bounds.min rc.bounds.max
        (containsPoint_cmin_cmax_right _ _ hp)
    · intro rc' hrc p hp
      cases hrc
      simp only [recalcBounds]
      exact containsPoint_cmin_cmax_right _ _ hp

end Boids

namespace Boids

theorem bvhSplit_subset_left {items : List Item} {bounds : Box3} :
    ∀ i ∈ (bvhSplit items bounds).1, i ∈ items := by
  intro i hi
  simp only [bvhSplit] at hi
  exact (List.mem_filter.1 hi).1

theorem bvhSplit_subset_right {items : List Item} {bounds : Box3} :
    ∀ i ∈ (bvhSplit items bounds).2, i ∈ items := by
  intro i hi
  simp only [bvhSplit] at hi
  exact (List.mem_filter.1 hi).1

/-- Subdivision produces bounds-well-formed trees: the committed children get
tight recomputed bounds, and the node keeps its stored bounds which cover
everything it covered before. -/
theorem subdivide_bwf :
    ∀ (items : List Item) (bounds : Box3),
      (∀ i ∈ items, Box3.containsPoint bounds i.pos = true) →
      BWF (subdivideList items bounds) := by
  refine subdivideList.induct _ ?_ ?_ ?_
  · intro items bounds hlt hp
    rw [subdivideList, if_pos hlt]
    refine .intro _ _ _ _ ?_ (by simp) (by simp)
    intro i hi
    simp only [BNode.allItems_eq, optItems_none, List.append_nil] at hi
    exact hp i hi
  · intro items bounds hge hcommit ihl ihr hp
    rw [subdivideList, if_neg hge, if_pos hcommit]
    have hL := ihl (fun i hi => (recalcBounds_covers _ none none zeroBox).1 i hi)
    have hR := ihr (fun i hi => (recalcBounds_covers _ none none zeroBox).1 i hi)
    refine .intro _ _ _ _ ?_ ?_ ?_
    · intro i hi
      simp only [BNode.allItems_eq, optItems_some, List.nil_append,
        List.mem_append] at hi
      rcases hi with hi | hi
      · have := (subdivide_perm _ _).mem_iff.1 hi
        exact hp i (bvhSplit_subset_left i this)
      · have := (subdivide_perm _ _).mem_iff.1 hi
        exact hp i (bvhSplit_subset_right i this)
    · intro lc hlc
      cases hlc
      exact hL
    · intro rc hrc
      cases hrc
      exact hR
  · intro items bounds hge hfail hp
    rw [subdivideList, if_neg hge, if_neg hfail]
    refine .intro _ _ _ _ ?_ (by simp) (by simp)
    intro i hi
    simp only [BNode.allItems_eq, optItems_none, List.append_nil,
      List.mem_append] at hi
    rcases hi with hi | hi
    · exact hp i (bvhSplit_subset_left i hi)
    · exact hp i (bvhSplit_subset_right i hi)

/-- An already-owned item is not inserted again. -/
theorem bvhInsert_mem {t : Option BNode} {x : Item} (h : x ∈ treeItems t) :
    bvhInsert t x = t := by
  rw [bvhInsert.eq_def, if_pos h]

/-- Inserting an unowned item appends it to the root's list. -/
theorem bvhInsert_notMem {t : Option BNode} {x : Item} (h : x ∉ treeItems t) :
    (treeItems (bvhInsert t x)).Perm (x :: treeItems t) := by
  rw [bvhInsert.eq_def, if_neg h]
  rcases t with _ | ⟨items, l, r, bounds⟩
  · simp [treeItems]
  · simp only [treeItems, BNode.allItems_eq]
    simpa [List.append_assoc] using
      @List.perm_middle Item x items (optItems l ++ optItems r)

end Boids

namespace Boids

/-- The whole-structure invariant maintained by the public operations:
duplicate-free contents; both subtrees of the root (the root itself is
exempt) satisfy the minimum-leaf bound; a non-null root holds at least one
item; and stored bounds cover their subtrees. -/
def BvhInv (t : Option BNode) : Prop :=
  (treeItems t).Nodup ∧
  ∀ root, t = some root → ChildrenLM root ∧ root.allItems ≠ [] ∧ BWF root

theorem bvhInv_none : BvhInv none :=
  ⟨by simp [treeItems], by simp⟩

theorem bvhInsert_inv {t : Option BNode} (x : Item) (h : BvhInv t) :
    BvhInv (bvhInsert t x) := by
  obtain ⟨hnd, hroot⟩ := h
  by_cases hx : x ∈ treeItems t
  · rw [bvhInsert_mem hx]
    exact ⟨hnd, hroot⟩
  · constructor
    · refine (bvhInsert_notMem hx).nodup_iff.2 ?_
      exact List.nodup_cons.2 ⟨hx, hnd⟩
    · intro root hr
      rw [bvhInsert.eq_def, if_neg hx] at hr
      rcases t with _ | ⟨items, l, r, bounds⟩
      · cases hr
        refine ⟨⟨by simp, by simp⟩, by simp, ?_⟩
        refine .intro _ _ _ _ ?_ (by simp) (by simp)
        intro i hi
        simp only [BNode.allItems_eq, optItems_none, List.append_nil,
          List.mem_singleton] at hi
        rw [hi]
        exact containsPoint_point x.pos
      · cases hr
        obtain ⟨hclm, hne, hbwf⟩ := hroot _ rfl
        refine ⟨⟨?_, ?_⟩, ?_, ?_⟩
        · intro lc hlc
          simp only [BNode.left_mk] at hlc
          exact hclm.1 lc hlc
        · intro rc hrc
          simp only [BNode.right_mk] at hrc
          exact hclm.2 rc hrc
        · simp [BNode.allItems_eq]
        · refine .intro _ _ _ _ ?_ ?_ ?_
          · intro i hi
            simp only [BNode.allItems_eq, List.append_assoc, List.mem_append,
              List.mem_singleton] at hi
            rcases hi with hi | hi | hi | hi
            · exact containsPoint_cmin_cmax_left x.pos x.pos
                (hbwf.hinB i (by simp [BNode.allItems_eq, hi]))
            · rw [hi]
              exact containsPoint_cmin_cmax_right bounds.min bounds.max
                (containsPoint_point x.pos)
            · exact containsPoint_cmin_cmax_left x.pos x.pos
                (hbwf.hinB i (by
                  rw [BNode.allItems_eq]
                  exact List.mem_append.2 (Or.inl (List.mem_append.2 (Or.inr hi)))))
            · exact containsPoint_cmin_cmax_left x.pos x.pos
                (hbwf.hinB i (by
                  rw [BNode.allItems_eq]
                  exact List.mem_append.2 (Or.inr hi)))
          · intro lc hlc
            simp only [BNode.left_mk] at hlc
            exact hbwf.hlB lc hlc
          · intro rc hrc
            simp only [BNode.right_mk] at hrc
            exact hbwf.hrB rc hrc

theorem bvhRebuild_perm (t : Option BNode) :
    (treeItems (bvhRebuild t)).Perm (treeItems t) := by
  rcases t with _ | root
  · simp [bvhRebuild, treeItems]
  · simp only [bvhRebuild, treeItems]
    exact subdivide_perm _ _

theorem bvhRebuild_inv {t : Option BNode} (h : BvhInv t) :
    BvhInv (bvhRebuild t) := by
  obtain ⟨hnd, hroot⟩ := h
  constructor
  · exact (bvhRebuild_perm t).nodup_iff.2 hnd
  · intro root hr
    rcases t with _ | old
    · simp [bvhRebuild] at hr
    · simp only [bvhRebuild] at hr
      cases hr
      obtain ⟨hclm, hne, hbwf⟩ := hroot _ rfl
      refine ⟨subdivide_childrenLM _ _, ?_, ?_⟩
      · intro hnil
        have hperm := subdivide_perm old.allItems old.bounds
        rw [hnil] at hperm
        exact hne (hperm.symm.eq_nil)
      · refine subdivide_bwf _ _ ?_
        intro i hi
        have := hbwf.hinB i hi
        rcases old with ⟨items, l, r, bounds⟩
        simpa using this

end Boids

namespace Boids

theorem filter_ne_eq_erase {l : List Item} (h : l.Nodup) (x : Item) :
    l.filter (fun i => !decide (i = x)) = l.erase x := by
  rw [List.Nodup.erase_eq_filter h]
  refine List.filter_congr ?_
  intro a _
  by_cases hax : a = x <;> simp [hax]

/-- The stop node of the removal walk is bounds-well-formed: its recomputed
bounds cover its own list (seeded from it) and its remaining children. -/
theorem stopAt_bwf (items : List Item) (l r : Option BNode) (bounds : Box3)
    (hl : ∀ lc, l = some lc → BWF lc) (hr : ∀ rc, r = some rc → BWF rc) :
    BWF (.mk items l r (recalcBounds items l r bounds)) := by
  refine .intro _ _ _ _ ?_ hl hr
  intro i hi
  rw [BNode.allItems_eq] at hi
  obtain h := recalcBounds_covers items l r bounds
  rcases List.mem_append.1 hi with hi | hi
  · rcases List.mem_append.1 hi with hi | hi
    · exact h.1 i hi
    · rcases l with _ | lc
      · simp at hi
      · exact h.2.1 lc rfl _ ((hl lc rfl).hinB i (by simpa using hi))
  · rcases r with _ | rc
    · simp at hi
    · exact h.2.2 rc rfl _ ((hr rc rfl).hinB i (by simpa using hi))

theorem removeGoOpt_none (x : Item) : removeGoOpt x none = RemRes.notFound := by
  rw [removeGoOpt]

theorem removeGoOpt_some (x : Item) (n : BNode) :
    removeGoOpt x (some n) = removeGo x n := by
  rw [removeGoOpt]

theorem ne_nil_append3_left {A B C : List Item} (h : A ≠ []) : (A ++ B) ++ C ≠ [] := by
  intro h0
  rcases List.append_eq_nil.1 h0 with ⟨h1, _⟩
  rcases List.append_eq_nil.1 h1 with ⟨h2, _⟩
  exact h h2

theorem ne_nil_append3_mid {A B C : List Item} (h : B ≠ []) : (A ++ B) ++ C ≠ [] := by
  intro h0
  rcases List.append_eq_nil.1 h0 with ⟨h1, _⟩
  rcases List.append_eq_nil.1 h1 with ⟨_, h2⟩
  exact h h2

theorem ne_nil_append3_right {A B C : List Item} (h : C ≠ []) : (A ++ B) ++ C ≠ [] := by
  intro h0
  rcases List.append_eq_nil.1 h0 with ⟨_, h2⟩
  exact h h2

/-- Replacing the left child by one whose items come from the old one keeps
the (unrecomputed) stored bounds covering. -/
theorem bwf_replace_left {items : List Item} {lc : BNode} {r : Option BNode}
    {bounds : Box3} {lc' : BNode}
    (hbwf : BWF (.mk items (some lc) r bounds))
    (hsub : ∀ i ∈ lc'.allItems, i ∈ lc.allItems) (hlc' : BWF lc') :
    BWF (.mk items (some lc') r bounds) := by
  refine .intro _ _ _ _ ?_ ?_ ?_
  · intro i hi
    apply hbwf.hinB i
    rw [BNode.allItems_eq] at hi ⊢
    simp only [optItems_some] at hi ⊢
    rcases List.mem_append.1 hi with hi | hi
    · rcases List.mem_append.1 hi with hi | hi
      · exact List.mem_append_left _ (List.mem_append_left _ hi)
      · exact List.mem_append_left _ (List.mem_append_right _ (hsub i hi))
    · exact List.mem_append_right _ hi
  · intro c hc
    cases hc
    exact hlc'
  · intro c hc
    exact hbwf.hrB c hc

/-- Right-child analogue of `bwf_replace_left`. -/
theorem bwf_replace_right {items : List Item} {l : Option BNode} {rc : BNode}
    {bounds : Box3} {rc' : BNode}
    (hbwf : BWF (.mk items l (some rc) bounds))
    (hsub : ∀ i ∈ rc'.allItems, i ∈ rc.allItems) (hrc' : BWF rc') :
    BWF (.mk items l (some rc') bounds) := by
  refine .intro _ _ _ _ ?_ ?_ ?_
  · intro i hi
    apply hbwf.hinB i
    rw [BNode.allItems_eq] at hi ⊢
    simp only [optItems_some] at hi ⊢
    rcases List.mem_append.1 hi with hi | hi
    · exact List.mem_append_left _ hi
    · exact List.mem_append_right _ (hsub i hi)
  · intro c hc
    exact hbwf.hlB c hc
  · intro c hc
    cases hc
    exact hrc'

theorem removeGo_owner_eq (x : Item) (items : List Item) (l r : Option BNode)
    (bounds : Box3) (hx : x ∈ items) :
    removeGo x (.mk items l r bounds) =
      if l.isNone && r.isNone &&
          decide ((items.filter (fun i => !decide (i = x))).length <
            MIN_LEAF_NODE_SIZE)
      then .pending (items.filter (fun i => !decide (i = x)))
      else stopAt (items.filter (fun i => !decide (i = x))) l r bounds := by
  rw [removeGo, if_pos hx]

theorem removeGo_step_eq (x : Item) (items : List Item) (l r : Option BNode)
    (bounds : Box3) (hx : x ∉ items) :
    removeGo x (.mk items l r bounds) =
      match removeGoOpt x l with
      | .stopped lc' ok => .stopped (.mk items (some lc') r bounds) ok
      | .pending pitems =>
        if r.isNone && decide ((items ++ pitems).length < MIN_LEAF_NODE_SIZE)
        then .pending (items ++ pitems)
        else stopAt (items ++ pitems) none r bounds
      | .notFound =>
        match removeGoOpt x r with
        | .stopped rc' ok => .stopped (.mk items l (some rc') bounds) ok
        | .pending pitems =>
          if l.isNone && decide ((items ++ pitems).length < MIN_LEAF_NODE_SIZE)
          then .pending (items ++ pitems)
          else stopAt (items ++ pitems) l none bounds
        | .notFound => .notFound := by
  rw [removeGo, if_neg hx]

theorem removeGo_left_pending_eq (x : Item) (items : List Item)
    (l r : Option BNode) (bounds : Box3) (pitems : List Item) (hx : x ∉ items)
    (hres : removeGoOpt x l = RemRes.pending pitems) :
    removeGo x (.mk items l r bounds) =
      if r.isNone && decide ((items ++ pitems).length < MIN_LEAF_NODE_SIZE)
      then .pending (items ++ pitems)
      else stopAt (items ++ pitems) none r bounds := by
  rw [removeGo_step_eq x items l r bounds hx, hres]

theorem removeGo_right_pending_eq (x : Item) (items : List Item)
    (l r : Option BNode) (bounds : Box3) (pitems : List Item) (hx : x ∉ items)
    (hresl : removeGoOpt x l = RemRes.notFound)
    (hres : removeGoOpt x r = RemRes.pending pitems) :
    removeGo x (.mk items l r bounds) =
      if l.isNone && decide ((items ++ pitems).length < MIN_LEAF_NODE_SIZE)
      then .pending (items ++ pitems)
      else stopAt (items ++ pitems) l none bounds := by
  rw [removeGo_step_eq x items l r bounds hx, hresl, hres]

end Boids

namespace Boids

/-- Full characterisation of the removal walk on a duplicate-free subtree:
`notFound` exactly when the item is absent; a `stopped` walk yields the old
contents minus the item and preserves the minimum-leaf, root-exempt
minimum-leaf (with non-emptiness) and bounds invariants; a `pending` collapse
carries the old contents minus the item. -/
def RemoveSpec (x : Item) (n : BNode) : Prop :=
  (n.allItems).Nodup →
    (removeGo x n = .notFound ↔ x ∉ n.allItems) ∧
    (∀ n' ok, removeGo x n = .stopped n' ok →
      (n'.allItems).Perm ((n.allItems).erase x) ∧
      (LeafMin n → LeafMin n') ∧
      (ChildrenLM n → ChildrenLM n' ∧ n'.allItems ≠ []) ∧
      (BWF n → BWF n')) ∧
    (∀ its, removeGo x n = .pending its → its.Perm ((n.allItems).erase x))

theorem removeGo_spec (x : Item) : ∀ n : BNode, RemoveSpec x n := by
  refine removeGo.induct x (fun o => ∀ c, o = some c → RemoveSpec x c)
    (RemoveSpec x) ?_ ?_ ?_ ?_ ?_ ?_ ?_ ?_ ?_ ?_ ?_
  · -- the owner is a childless node falling below the minimum: collapse
    intro items l r bounds hx hcond
    unfold RemoveSpec
    intro hnd
    rw [Bool.and_eq_true, Bool.and_eq_true] at hcond
    obtain ⟨⟨hl0, hr0⟩, hlen⟩ := hcond
    rw [Option.isNone_iff_eq_none] at hl0 hr0
    subst hl0; subst hr0
    rw [BNode.allItems_eq] at hnd
    simp only [optItems_none, List.append_nil] at hnd
    have hgo : removeGo x (.mk items none none bounds) =
        .pending (items.filter (fun i => !decide (i = x))) := by
      rw [removeGo_owner_eq x items none none bounds hx]
      rw [if_pos (by simp only [Option.isNone_none, Bool.and_self, Bool.true_and]; exact hlen)]
    have hxall : x ∈ (BNode.mk items none none bounds).allItems := by
      rw [BNode.allItems_eq]
      exact List.mem_append_left _ (List.mem_append_left _ hx)
    refine ⟨?_, ?_, ?_⟩
    · rw [hgo]
      exact iff_of_false (by simp) (fun h => h hxall)
    · intro n' ok h
      rw [hgo] at h
      exact absurd h (by simp)
    · intro its h
      rw [hgo] at h
      injection h with h1
      subst h1
      rw [BNode.allItems_eq]
      simp only [optItems_none, List.append_nil]
      rw [filter_ne_eq_erase hnd x]
  · -- the owner stops the walk in place
    intro items l r bounds hx hcond
    unfold RemoveSpec
    intro hnd
    rw [BNode.allItems_eq] at hnd
    have hndi : items.Nodup :=
      List.Nodup.of_append_left (List.Nodup.of_append_left hnd)
    have hgo : removeGo x (.mk items l r bounds) =
        .stopped (.mk (items.filter (fun i => !decide (i = x))) l r
          (recalcBounds (items.filter (fun i => !decide (i = x))) l r bounds))
          (l.isSome && r.isSome) := by
      rw [removeGo_owner_eq x items l r bounds hx, if_neg hcond, stopAt]
    have hxall : x ∈ (BNode.mk items l r bounds).allItems := by
      rw [BNode.allItems_eq]
      exact List.mem_append_left _ (List.mem_append_left _ hx)
    refine ⟨?_, ?_, ?_⟩
    · rw [hgo]
      exact iff_of_false (by simp) (fun h => h hxall)
    · intro n' ok h
      rw [hgo] at h
      simp only [RemRes.stopped.injEq] at h
      obtain ⟨h1, h2⟩ := h
      subst h1
      refine ⟨?_, ?_, ?_, ?_⟩
      · rw [BNode.allItems_eq, BNode.allItems_eq]
        rw [List.erase_append_left _ (List.mem_append_left _ hx),
          List.erase_append_left _ hx, filter_ne_eq_erase hndi x]
      · intro hlm
        refine .intro _ _ _ _ ?_ ?_ ?_
        · intro hl0 hr0
          rw [hl0, hr0] at hcond
          simp only [Option.isNone_none, Bool.and_self, Bool.true_and,
            decide_eq_true_eq, not_lt] at hcond
          exact hcond
        · intro c hc
          exact hlm.hl c hc
        · intro c hc
          exact hlm.hr c hc
      · intro hclm
        refine ⟨⟨fun c hc => hclm.1 c hc, fun c hc => hclm.2 c hc⟩, ?_⟩
        rw [BNode.allItems_eq]
        rcases l with _ | lc
        · rcases r with _ | rc
          · simp only [Option.isNone_none, Bool.and_self, Bool.true_and,
              decide_eq_true_eq, not_lt] at hcond
            refine ne_nil_append3_left ?_
            intro hfil
            rw [hfil] at hcond
            have h16 : MIN_LEAF_NODE_SIZE = 16 := rfl
            simp [h16] at hcond
          · refine ne_nil_append3_right ?_
            simp only [optItems_some]
            exact (hclm.2 rc rfl).allItems_ne_nil
        · refine ne_nil_append3_mid ?_
          simp only [optItems_some]
          exact (hclm.1 lc rfl).allItems_ne_nil
      · intro hbwf
        exact stopAt_bwf _ l r bounds (fun c hc => hbwf.hlB c hc)
          (fun c hc => hbwf.hrB c hc)
    · intro its h
      rw [hgo] at h
      exact absurd h (by simp)
  · -- the walk stopped inside the left subtree
    intro items l r bounds hx lc' ok0 hres ihl
    unfold RemoveSpec
    intro hnd
    rcases l with _ | lc
    · rw [removeGoOpt_none] at hres
      exact absurd hres (by simp)
    rw [removeGoOpt_some] at hres
    rw [BNode.allItems_eq] at hnd
    simp only [optItems_some] at hnd
    have hndlc : lc.allItems.Nodup :=
      List.Nodup.of_append_right (List.Nodup.of_append_left hnd)
    obtain ⟨ihiff, ihstop, ihpend⟩ := ihl lc rfl hndlc
    have hmem : x ∈ lc.allItems := by
      by_contra hmem
      rw [ihiff.2 hmem] at hres
      exact absurd hres (by simp)
    obtain ⟨ihperm, ihlm, ihclm, ihbwf⟩ := ihstop lc' ok0 hres
    have hgo : removeGo x (.mk items (some lc) r bounds) =
        .stopped (.mk items (some lc') r bounds) ok0 := by
      rw [removeGo_step_eq x items (some lc) r bounds hx, removeGoOpt_some, hres]
    have hxall : x ∈ (BNode.mk items (some lc) r bounds).allItems := by
      rw [BNode.allItems_eq]
      exact List.mem_append_left _ (List.mem_append_right _ (by simpa using hmem))
    refine ⟨?_, ?_, ?_⟩
    · rw [hgo]
      exact iff_of_false (by simp) (fun h => h hxall)
    · intro n' ok h
      rw [hgo] at h
      simp only [RemRes.stopped.injEq] at h
      obtain ⟨h1, h2⟩ := h
      subst h1
      refine ⟨?_, ?_, ?_, ?_⟩
      · rw [BNode.allItems_eq, BNode.allItems_eq]
        simp only [optItems_some]
        rw [List.erase_append_left _ (List.mem_append_right _ hmem),
          List.erase_append_right _ hx]
        exact (List.Perm.append_left items ihperm).append_right _
      · intro hlm
        refine .intro _ _ _ _ ?_ ?_ ?_
        · intro hl0
          exact absurd hl0 (by simp)
        · intro c hc
          injection hc with h3
          subst h3
          exact ihlm (hlm.hl lc rfl)
        · intro c hc
          exact hlm.hr c hc
      · intro hclm
        refine ⟨⟨?_, fun c hc => hclm.2 c hc⟩, ?_⟩
        · intro c hc
          injection hc with h3
          subst h3
          exact ihlm (hclm.1 lc rfl)
        · rw [BNode.allItems_eq]
          refine ne_nil_append3_mid ?_
          simp only [optItems_some]
          exact (ihlm (hclm.1 lc rfl)).allItems_ne_nil
      · intro hbwf
        refine bwf_replace_left hbwf ?_ (ihbwf (hbwf.hlB lc rfl))
        intro i hi
        exact List.mem_of_mem_erase (ihperm.subset hi)
    · intro its h
      rw [hgo] at h
      exact absurd h (by simp)
  · -- left child collapsed; this node also collapses after consuming it
    intro items l r bounds hx pitems hres hcond ihl
    unfold RemoveSpec
    intro hnd
    rcases l with _ | lc
    · rw [removeGoOpt_none] at hres
      exact absurd hres (by simp)
    rw [removeGoOpt_some] at hres
    rw [Bool.and_eq_true] at hcond
    obtain ⟨hr0, hlen⟩ := hcond
    rw [Option.isNone_iff_eq_none] at hr0
    subst hr0
    rw [BNode.allItems_eq] at hnd
    simp only [optItems_some, optItems_none, List.append_nil] at hnd
    have hndlc : lc.allItems.Nodup := List.Nodup.of_append_right hnd
    obtain ⟨ihiff, ihstop, ihpend⟩ := ihl lc rfl hndlc
    have hmem : x ∈ lc.allItems := by
      by_contra hmem
      rw [ihiff.2 hmem] at hres
      exact absurd hres (by simp)
    have hperm := ihpend pitems hres
    have hgo : removeGo x (.mk items (some lc) none bounds) =
        .pending (items ++ pitems) := by
      rw [removeGo_left_pending_eq x items (some lc) none bounds pitems hx
        (by rw [removeGoOpt_some]; exact hres)]
      rw [if_pos (by simp only [Option.isNone_none, Bool.true_and]; exact hlen)]
    have hxall : x ∈ (BNode.mk items (some lc) none bounds).allItems := by
      rw [BNode.allItems_eq]
      exact List.mem_append_left _ (List.mem_append_right _ (by simpa using hmem))
    refine ⟨?_, ?_, ?_⟩
    · rw [hgo]
      exact iff_of_false (by simp) (fun h => h hxall)
    · intro n' ok h
      rw [hgo] at h
      exact absurd h (by simp)
    · intro its h
      rw [hgo] at h
      injection h with h1
      subst h1
      rw [BNode.allItems_eq]
      simp only [optItems_some, optItems_none, List.append_nil]
      rw [List.erase_append_right _ hx]
      exact List.Perm.append_left items hperm
  · -- left child collapsed; this node consumes it and stops
    intro items l r bounds hx pitems hres hcond ihl
    unfold RemoveSpec
    intro hnd
    rcases l with _ | lc
    · rw [removeGoOpt_none] at hres
      exact absurd hres (by simp)
    rw [removeGoOpt_some] at hres
    rw [BNode.allItems_eq] at hnd
    simp only [optItems_some] at hnd
    have hndlc : lc.allItems.Nodup :=
      List.Nodup.of_append_right (List.Nodup.of_append_left hnd)
    obtain ⟨ihiff, ihstop, ihpend⟩ := ihl lc rfl hndlc
    have hmem : x ∈ lc.allItems := by
      by_contra hmem
      rw [ihiff.2 hmem] at hres
      exact absurd hres (by simp)
    have hperm := ihpend pitems hres
    have hgo : removeGo x (.mk items (some lc) r bounds) =
        .stopped (.mk (items ++ pitems) none r
          (recalcBounds (items ++ pitems) none r bounds))
          ((none : Option BNode).isSome && r.isSome) := by
      rw [removeGo_left_pending_eq x items (some lc) r bounds pitems hx
        (by rw [removeGoOpt_some]; exact hres), if_neg hcond, stopAt]
    have hxall : x ∈ (BNode.mk items (some lc) r bounds).allItems := by
      rw [BNode.allItems_eq]
      exact List.mem_append_left _ (List.mem_append_right _ (by simpa using hmem))
    refine ⟨?_, ?_, ?_⟩
    · rw [hgo]
      exact iff_of_false (by simp) (fun h => h hxall)
    · intro n' ok h
      rw [hgo] at h
      simp only [RemRes.stopped.injEq] at h
      obtain ⟨h1, h2⟩ := h
      subst h1
      refine ⟨?_, ?_, ?_, ?_⟩
      · rw [BNode.allItems_eq, BNode.allItems_eq]
        simp only [optItems_some, optItems_none, List.append_nil]
        rw [List.erase_append_left _ (List.mem_append_right _ hmem),
          List.erase_append_right _ hx]
        exact (List.Perm.append_left items hperm).append_right _
      · intro hlm
        refine .intro _ _ _ _ ?_ ?_ ?_
        · intro _ hr0
          rw [hr0] at hcond
          simp only [Option.isNone_none, Bool.true_and, decide_eq_true_eq,
            not_lt] at hcond
          exact hcond
        · intro c hc
          exact absurd hc (by simp)
        · intro c hc
          exact hlm.hr c hc
      · intro hclm
        refine ⟨⟨fun c hc => absurd hc (by simp), fun c hc => hclm.2 c hc⟩, ?_⟩
        rw [BNode.allItems_eq]
        rcases r with _ | rc
        · simp only [Option.isNone_none, Bool.true_and, decide_eq_true_eq,
            not_lt] at hcond
          refine ne_nil_append3_left ?_
          intro h0
          rw [h0] at hcond
          have h16 : MIN_LEAF_NODE_SIZE = 16 := rfl
          simp [h16] at hcond
        · refine ne_nil_append3_right ?_
          simp only [optItems_some]
          exact (hclm.2 rc rfl).allItems_ne_nil
      · intro hbwf
        exact stopAt_bwf _ none r bounds (fun c hc => absurd hc (by simp))
          (fun c hc => hbwf.hrB c hc)
    · intro its h
      rw [hgo] at h
      exact absurd h (by simp)
  · -- the walk stopped inside the right subtree
    intro items l r bounds hx hresl rc' ok0 hres ihl ihr2
    unfold RemoveSpec
    intro hnd
    rcases r with _ | rc
    · rw [removeGoOpt_none] at hres
      exact absurd hres (by simp)
    rw [removeGoOpt_some] at hres
    rw [BNode.allItems_eq] at hnd
    simp only [optItems_some] at hnd
    have hndrc : rc.allItems.Nodup := List.Nodup.of_append_right hnd
    obtain ⟨ihiff, ihstop, ihpend⟩ := ihr2 rc rfl hndrc
    have hnotl : x ∉ optItems l := by
      rcases l with _ | lc
      · simp
      · rw [removeGoOpt_some] at hresl
        have hndlc : lc.allItems.Nodup := by
          have h4 := List.Nodup.of_append_left hnd
          simpa using List.Nodup.of_append_right h4
        simp only [optItems_some]
        exact ((ihl lc rfl hndlc).1).1 hresl
    have hmem : x ∈ rc.allItems := by
      by_contra hmem
      rw [ihiff.2 hmem] at hres
      exact absurd hres (by simp)
    obtain ⟨ihperm, ihlm, ihclm, ihbwf⟩ := ihstop rc' ok0 hres
    have hnot : x ∉ items ++ optItems l := by
      intro hmem2
      rcases List.mem_append.1 hmem2 with h3 | h3
      · exact hx h3
      · exact hnotl h3
    have hgo : removeGo x (.mk items l (some rc) bounds) =
        .stopped (.mk items l (some rc') bounds) ok0 := by
      rw [removeGo_step_eq x items l (some rc) bounds hx, hresl, removeGoOpt_some, hres]
    have hxall : x ∈ (BNode.mk items l (some rc) bounds).allItems := by
      rw [BNode.allItems_eq]
      exact List.mem_append_right _ (by simpa using hmem)
    refine ⟨?_, ?_, ?_⟩
    · rw [hgo]
      exact iff_of_false (by simp) (fun h => h hxall)
    · intro n' ok h
      rw [hgo] at h
      simp only [RemRes.stopped.injEq] at h
      obtain ⟨h1, h2⟩ := h
      subst h1
      refine ⟨?_, ?_, ?_, ?_⟩
      · rw [BNode.allItems_eq, BNode.allItems_eq]
        simp only [optItems_some]
        rw [List.erase_append_right _ hnot]
        exact List.Perm.append_left _ ihperm
      · intro hlm
        refine .intro _ _ _ _ ?_ ?_ ?_
        · intro _ hr0
          exact absurd hr0 (by simp)
        · intro c hc
          exact hlm.hl c hc
        · intro c hc
          injection hc with h3
          subst h3
          exact ihlm (hlm.hr rc rfl)
      · intro hclm
        refine ⟨⟨fun c hc => hclm.1 c hc, ?_⟩, ?_⟩
        · intro c hc
          injection hc with h3
          subst h3
          exact ihlm (hclm.2 rc rfl)
        · rw [BNode.allItems_eq]
          refine ne_nil_append3_right ?_
          simp only [optItems_some]
          exact (ihlm (hclm.2 rc rfl)).allItems_ne_nil
      · intro hbwf
        refine bwf_replace_right hbwf ?_ (ihbwf (hbwf.hrB rc rfl))
        intro i hi
        exact List.mem_of_mem_erase (ihperm.subset hi)
    · intro its h
      rw [hgo] at h
      exact absurd h (by simp)
  · -- right child collapsed; this node also collapses after consuming it
    intro items l r bounds hx hresl pitems hres hcond ihl ihr2
    unfold RemoveSpec
    intro hnd
    rcases r with _ | rc
    · rw [removeGoOpt_none] at hres
      exact absurd hres (by simp)
    rw [removeGoOpt_some] at hres
    rw [Bool.and_eq_true] at hcond
    obtain ⟨hl0, hlen⟩ := hcond
    rw [Option.isNone_iff_eq_none] at hl0
    subst hl0
    rw [BNode.allItems_eq] at hnd
    simp only [optItems_some, optItems_none, List.append_nil] at hnd
    have hndrc : rc.allItems.Nodup := List.Nodup.of_append_right hnd
    obtain ⟨ihiff, ihstop, ihpend⟩ := ihr2 rc rfl hndrc
    have hmem : x ∈ rc.allItems := by
      by_contra hmem
      rw [ihiff.2 hmem] at hres
      exact absurd hres (by simp)
    have hperm := ihpend pitems hres
    have hgo : removeGo x (.mk items none (some rc) bounds) =
        .pending (items ++ pitems) := by
      rw [removeGo_right_pending_eq x items none (some rc) bounds pitems hx
        (removeGoOpt_none x) (by rw [removeGoOpt_some]; exact hres)]
      rw [if_pos (by simp only [Option.isNone_none, Bool.true_and]; exact hlen)]
    have hxall : x ∈ (BNode.mk items none (some rc) bounds).allItems := by
      rw [BNode.allItems_eq]
      exact List.mem_append_right _ (by simpa using hmem)
    refine ⟨?_, ?_, ?_⟩
    · rw [hgo]
      exact iff_of_false (by simp) (fun h => h hxall)
    · intro n' ok h
      rw [hgo] at h
      exact absurd h (by simp)
    · intro its h
      rw [hgo] at h
      injection h with h1
      subst h1
      rw [BNode.allItems_eq]
      simp only [optItems_some, optItems_none, List.append_nil]
      rw [List.erase_append_right _ hx]
      exact List.Perm.append_left items hperm
  · -- right child collapsed; this node consumes it and stops
    intro items l r bounds hx hresl pitems hres hcond ihl ihr2
    unfold RemoveSpec
    intro hnd
    rcases r with _ | rc
    · rw [removeGoOpt_none] at hres
      exact absurd hres (by simp)
    rw [removeGoOpt_some] at hres
    rw [BNode.allItems_eq] at hnd
    simp only [optItems_some] at hnd
    have hndrc : rc.allItems.Nodup := List.Nodup.of_append_right hnd
    obtain ⟨ihiff, ihstop, ihpend⟩ := ihr2 rc rfl hndrc
    have hnotl : x ∉ optItems l := by
      rcases l with _ | lc
      · simp
      · rw [removeGoOpt_some] at hresl
        have hndlc : lc.allItems.Nodup := by
          have h4 := List.Nodup.of_append_left hnd
          simpa using List.Nodup.of_append_right h4
        simp only [optItems_some]
        exact ((ihl lc rfl hndlc).1).1 hresl
    have hmem : x ∈ rc.allItems := by
      by_contra hmem
      rw [ihiff.2 hmem] at hres
      exact absurd hres (by simp)
    have hperm := ihpend pitems hres
    have hnot : x ∉ items ++ optItems l := by
      intro hmem2
      rcases List.mem_append.1 hmem2 with h3 | h3
      · exact hx h3
      · exact hnotl h3
    have hgo : removeGo x (.mk items l (some rc) bounds) =
        .stopped (.mk (items ++ pitems) l none
          (recalcBounds (items ++ pitems) l none bounds))
          (l.isSome && (none : Option BNode).isSome) := by
      rw [removeGo_right_pending_eq x items l (some rc) bounds pitems hx hresl
        (by rw [removeGoOpt_some]; exact hres), if_neg hcond, stopAt]
    have hxall : x ∈ (BNode.mk items l (some rc) bounds).allItems := by
      rw [BNode.allItems_eq]
      exact List.mem_append_right _ (by simpa using hmem)
    refine ⟨?_, ?_, ?_⟩
    · rw [hgo]
      exact iff_of_false (by simp) (fun h => h hxall)
    · intro n' ok h
      rw [hgo] at h
      simp only [RemRes.stopped.injEq] at h
      obtain ⟨h1, h2⟩ := h
      subst h1
      refine ⟨?_, ?_, ?_, ?_⟩
      · rw [BNode.allItems_eq, BNode.allItems_eq]
        simp only [optItems_some, optItems_none, List.append_nil]
        rw [List.erase_append_right _ hnot]
        simp only [List.append_assoc]
        refine List.Perm.append_left items ?_
        exact (@List.perm_append_comm _ pitems (optItems l)).trans
          (List.Perm.append_left (optItems l) hperm)
      · intro hlm
        refine .intro _ _ _ _ ?_ ?_ ?_
        · intro hl0 _
          rw [hl0] at hcond
          simp only [Option.isNone_none, Bool.true_and, decide_eq_true_eq,
            not_lt] at hcond
          exact hcond
        · intro c hc
          exact hlm.hl c hc
        · intro c hc
          exact absurd hc (by simp)
      · intro hclm
        refine ⟨⟨fun c hc => hclm.1 c hc, fun c hc => absurd hc (by simp)⟩, ?_⟩
        rw [BNode.allItems_eq]
        rcases l with _ | lc2
        · simp only [Option.isNone_none, Bool.true_and, decide_eq_true_eq,
            not_lt] at hcond
          refine ne_nil_append3_left ?_
          intro h0
          rw [h0] at hcond
          have h16 : MIN_LEAF_NODE_SIZE = 16 := rfl
          simp [h16] at hcond
        · refine ne_nil_append3_mid ?_
          simp only [optItems_some]
          exact (hclm.1 lc2 rfl).allItems_ne_nil
      · intro hbwf
        exact stopAt_bwf _ l none bounds (fun c hc => hbwf.hlB c hc)
          (fun c hc => absurd hc (by simp))
    · intro its h
      rw [hgo] at h
      exact absurd h (by simp)
  · -- the item is nowhere in this subtree
    intro items l r bounds hx hresl hresr ihl ihr2
    unfold RemoveSpec
    intro hnd
    rw [BNode.allItems_eq] at hnd
    have hnotl : x ∉ optItems l := by
      rcases l with _ | lc
      · simp
      · rw [removeGoOpt_some] at hresl
        have hndlc : lc.allItems.Nodup := by
          have h4 := List.Nodup.of_append_left hnd
          simpa using List.Nodup.of_append_right h4
        simp only [optItems_some]
        exact ((ihl lc rfl hndlc).1).1 hresl
    have hnotr : x ∉ optItems r := by
      rcases r with _ | rc
      · simp
      · rw [removeGoOpt_some] at hresr
        have hndrc : rc.allItems.Nodup := by
          simpa using List.Nodup.of_append_right hnd
        simp only [optItems_some]
        exact ((ihr2 rc rfl hndrc).1).1 hresr
    have hgo : removeGo x (.mk items l r bounds) = .notFound := by
      rw [removeGo_step_eq x items l r bounds hx, hresl, hresr]
    refine ⟨?_, ?_, ?_⟩
    · rw [hgo]
      refine iff_of_true rfl ?_
      rw [BNode.allItems_eq]
      intro hmem
      rcases List.mem_append.1 hmem with h3 | h3
      · rcases List.mem_append.1 h3 with h4 | h4
        · exact hx h4
        · exact hnotl h4
      · exact hnotr h3
    · intro n' ok h
      rw [hgo] at h
      exact absurd h (by simp)
    · intro its h
      rw [hgo] at h
      exact absurd h (by simp)
  · -- a missing child satisfies the option motive vacuously
    intro c hc
    exact absurd hc (by simp)
  · -- a present child satisfies the option motive through the node motive
    intro lc ih c hc
    injection hc with h3
    subst h3
    exact ih

end Boids

namespace Boids

/-- `BinaryBvh.remove` on a well-formed tree: the contents lose exactly (one
occurrence of) the removed item, and the structural invariant survives. -/
theorem bvhRemove_inv {t : Option BNode} (x : Item) (h : BvhInv t) :
    BvhInv (bvhRemove t x) ∧
      (treeItems (bvhRemove t x)).Perm ((treeItems t).erase x) := by
  obtain ⟨hnd, hroot⟩ := h
  rcases t with _ | root
  · exact ⟨⟨by simp [bvhRemove, treeItems], by simp [bvhRemove]⟩,
      by simp [bvhRemove, treeItems]⟩
  obtain ⟨hclm, hne, hbwf⟩ := hroot root rfl
  have hnd' : root.allItems.Nodup := by simpa [treeItems] using hnd
  obtain ⟨hiff, hstop, hpend⟩ := removeGo_spec x root hnd'
  rcases hres : removeGo x root with _ | ⟨n', ok⟩ | its
  · -- not found: remove is a no-op and the erase is too
    have hx : x ∉ root.allItems := hiff.1 hres
    have hstep : bvhRemove (some root) x = some root := by
      rw [bvhRemove, hres]
    rw [hstep]
    constructor
    · refine ⟨hnd, ?_⟩
      intro root' hr'
      cases hr'
      exact ⟨hclm, hne, hbwf⟩
    · simp only [treeItems]
      rw [List.erase_of_not_mem hx]
  · obtain ⟨hperm, _, hclm', hbwf'⟩ := hstop n' ok hres
    have hstep : bvhRemove (some root) x = some n' := by
      rw [bvhRemove, hres]
    rw [hstep]
    refine ⟨⟨?_, ?_⟩, ?_⟩
    · simp only [treeItems]
      exact hperm.nodup_iff.2 (hnd'.erase x)
    · intro root' hr'
      cases hr'
      exact ⟨(hclm' hclm).1, (hclm' hclm).2, hbwf' hbwf⟩
    · simpa [treeItems] using hperm
  · have hperm := hpend its hres
    have hpe : bvhRemove (some root) x =
        if its.length = 0 then none
        else some (.mk its none none (recalcBounds its none none root.bounds)) := by
      rw [bvhRemove, hres]
    by_cases hlen : its.length = 0
    · have hits : its = [] := List.length_eq_zero.1 hlen
      have hstep : bvhRemove (some root) x = none := by
        rw [hpe, if_pos hlen]
      rw [hstep]
      refine ⟨⟨by simp [treeItems], by simp⟩, ?_⟩
      subst hits
      simpa [treeItems] using hperm.symm
    · have hstep : bvhRemove (some root) x =
          some (.mk its none none (recalcBounds its none none root.bounds)) := by
        rw [hpe, if_neg hlen]
      rw [hstep]
      have hall : (BNode.mk its none none
          (recalcBounds its none none root.bounds)).allItems = its := by
        rw [BNode.allItems_eq]
        simp
      refine ⟨⟨?_, ?_⟩, ?_⟩
      · simp only [treeItems, hall]
        exact hperm.nodup_iff.2 (hnd'.erase x)
      · intro root' hr'
        cases hr'
        refine ⟨⟨by simp, by simp⟩, ?_, ?_⟩
        · rw [hall]
          intro h0
          rw [h0] at hlen
          exact hlen rfl
        · refine .intro _ _ _ _ ?_ (by simp) (by simp)
          intro i hi
          rw [hall] at hi
          exact (recalcBounds_covers its none none root.bounds).1 i hi
      · simp only [treeItems, hall]
        exact hperm

end Boids

namespace Boids

theorem bvhRunOp_inv {t : Option BNode} (op : BvhOp) (h : BvhInv t) :
    BvhInv (bvhRunOp t op) := by
  cases op with
  | ins item => exact bvhInsert_inv item h
  | rem item => exact (bvhRemove_inv item h).1
  | rebuild => exact bvhRebuild_inv h

/-- The structural invariant holds after every operation sequence. -/
theorem bvhRun_inv (ops : List BvhOp) : BvhInv (bvhRun ops) := by
  suffices h : ∀ (ops : List BvhOp) (t : Option BNode), BvhInv t →
      BvhInv (ops.foldl bvhRunOp t) from h ops none bvhInv_none
  intro ops
  induction ops with
  | nil => exact fun t ht => ht
  | cons op rest ih =>
    intro t ht
    simp only [List.foldl_cons]
    exact ih _ (bvhRunOp_inv op ht)

/-- Whether a public operation is an insertion. -/
def BvhOp.isIns : BvhOp → Bool
  | .ins _ => true
  | _ => false

/-- The item removed by a `remove` operation. -/
def remItem : BvhOp → Option Item
  | .rem x => some x
  | _ => none

theorem bvhRun_inserts : ∀ (xs : List Item) (t : Option BNode), BvhInv t →
    ((xs : Multiset Item) + (treeItems t : Multiset Item)).Nodup →
    BvhInv ((xs.map BvhOp.ins).foldl bvhRunOp t) ∧
    ((treeItems ((xs.map BvhOp.ins).foldl bvhRunOp t)) : Multiset Item) =
      ↑xs + ↑(treeItems t) := by
  intro xs
  induction xs with
  | nil =>
    intro t ht _
    exact ⟨ht, by simp⟩
  | cons x rest ih =>
    intro t ht hnd
    have hcast : ((x :: rest : List Item) : Multiset Item) + ↑(treeItems t) =
        x ::ₘ ((rest : Multiset Item) + ↑(treeItems t)) := by
      simp [Multiset.cons_add]
    rw [hcast] at hnd
    have hx : x ∉ treeItems t := by
      intro hmem
      exact (Multiset.nodup_cons.1 hnd).1
        (Multiset.mem_add.2 (Or.inr (by simpa using hmem)))
    have hinv1 := bvhInsert_inv x ht
    have hperm1 : (treeItems (bvhInsert t x)).Perm (x :: treeItems t) :=
      bvhInsert_notMem hx
    have hco : (treeItems (bvhInsert t x) : Multiset Item) =
        x ::ₘ ↑(treeItems t) := by
      rw [Multiset.coe_eq_coe.2 hperm1]
      simp
    have hnd2 : ((rest : Multiset Item) +
        (treeItems (bvhInsert t x) : Multiset Item)).Nodup := by
      rw [hco, Multiset.add_cons]
      exact hnd
    obtain ⟨hinv2, heq2⟩ := ih (bvhInsert t x) hinv1 hnd2
    constructor
    · simpa only [List.map_cons, List.foldl_cons, bvhRunOp] using hinv2
    · simp only [List.map_cons, List.foldl_cons, bvhRunOp]
      rw [heq2, hco, hcast, Multiset.add_cons]

theorem bvhRun_removals : ∀ (ops : List BvhOp),
    (∀ op ∈ ops, op.isIns = false) →
    ∀ t : Option BNode, BvhInv t →
      BvhInv (ops.foldl bvhRunOp t) ∧
      ((treeItems (ops.foldl bvhRunOp t)) : Multiset Item) =
        (treeItems t : Multiset Item) - ↑(ops.filterMap remItem) := by
  intro ops
  induction ops with
  | nil =>
    intro _ t ht
    exact ⟨ht, by simp⟩
  | cons op rest ih =>
    intro hops t ht
    have hop : op.isIns = false := hops op (List.mem_cons_self op rest)
    have hrest : ∀ op' ∈ rest, op'.isIns = false :=
      fun op' h => hops op' (List.mem_cons_of_mem _ h)
    cases op with
    | ins x => simp [BvhOp.isIns] at hop
    | rem x =>
      obtain ⟨hinv1, hperm1⟩ := bvhRemove_inv x ht
      obtain ⟨hinv2, heq2⟩ := ih hrest (bvhRemove t x) hinv1
      have hco : (treeItems (bvhRemove t x) : Multiset Item) =
          (treeItems t : Multiset Item).erase x := by
        rw [Multiset.coe_eq_coe.2 hperm1]
        exact Multiset.coe_erase _ _
      constructor
      · simpa only [List.foldl_cons, bvhRunOp] using hinv2
      · simp only [List.foldl_cons, bvhRunOp, List.filterMap_cons, remItem]
        rw [heq2, hco, ← Multiset.cons_coe, Multiset.sub_cons]
    | rebuild =>
      obtain ⟨hinv2, heq2⟩ := ih hrest (bvhRebuild t) (bvhRebuild_inv ht)
      have hco : (treeItems (bvhRebuild t) : Multiset Item) =
          (treeItems t : Multiset Item) :=
        Multiset.coe_eq_coe.2 (bvhRebuild_perm t)
      constructor
      · simpa only [List.foldl_cons, bvhRunOp] using hinv2
      · simp only [List.foldl_cons, bvhRunOp, List.filterMap_cons, remItem]
        rw [heq2, hco]

end Boids

namespace Boids

/-- C6: inserting pairwise-distinct items and then removing all of them — in
any order, with any interleaved `rebuild` calls — leaves the index empty
(`root == null`) and makes any subsequent `queryItemsFromSphere` yield
nothing. -/
theorem bvh_insert_remove_round_trip (xs : List Item) (ops : List BvhOp)
    (hnd : xs.Nodup)
    (hops : ∀ op ∈ ops, op.isIns = false)
    (hperm : (ops.filterMap remItem).Perm xs)
    (s : Sphere) :
    bvhRun (xs.map BvhOp.ins ++ ops) = none ∧
    bvhQuery (bvhRun (xs.map BvhOp.ins ++ ops)) s = [] := by
  have hsplit : bvhRun (xs.map BvhOp.ins ++ ops) =
      ops.foldl bvhRunOp ((xs.map BvhOp.ins).foldl bvhRunOp none) := by
    rw [bvhRun, List.foldl_append]
  obtain ⟨hinv1, heq1⟩ := bvhRun_inserts xs none bvhInv_none
    (by simpa [treeItems] using Multiset.coe_nodup.2 hnd)
  obtain ⟨hinv2, heq2⟩ := bvhRun_removals ops hops _ hinv1
  have hnil : treeItems (ops.foldl bvhRunOp
      ((xs.map BvhOp.ins).foldl bvhRunOp none)) = [] := by
    refine (Multiset.coe_eq_zero _).1 ?_
    rw [heq2, heq1, Multiset.coe_eq_coe.2 hperm]
    simp [treeItems]
  have hnone : ops.foldl bvhRunOp
      ((xs.map BvhOp.ins).foldl bvhRunOp none) = none := by
    rcases hres : ops.foldl bvhRunOp
        ((xs.map BvhOp.ins).foldl bvhRunOp none) with _ | root
    · rfl
    · exfalso
      obtain ⟨hclm, hne, _⟩ := hinv2.2 root hres
      rw [hres] at hnil
      simp only [treeItems] at hnil
      exact hne hnil
  rw [hsplit, hnone]
  exact ⟨rfl, rfl⟩

theorem bvh_insert_remove_round_trip_witness :
    (([⟨0, ⟨0,0,0⟩⟩, ⟨1, ⟨1,0,0⟩⟩] : List Item).Nodup ∧
      (∀ op ∈ ([.rebuild, .rem ⟨1, ⟨1,0,0⟩⟩, .rem ⟨0, ⟨0,0,0⟩⟩] : List BvhOp),
        op.isIns = false) ∧
      (([.rebuild, .rem ⟨1, ⟨1,0,0⟩⟩, .rem ⟨0, ⟨0,0,0⟩⟩] : List BvhOp).filterMap
        remItem).Perm [⟨0, ⟨0,0,0⟩⟩, ⟨1, ⟨1,0,0⟩⟩]) ∧
    (bvhRun (([⟨0, ⟨0,0,0⟩⟩, ⟨1, ⟨1,0,0⟩⟩] : List Item).map BvhOp.ins ++
        [.rebuild, .rem ⟨1, ⟨1,0,0⟩⟩, .rem ⟨0, ⟨0,0,0⟩⟩]) = none ∧
      bvhQuery (bvhRun (([⟨0, ⟨0,0,0⟩⟩, ⟨1, ⟨1,0,0⟩⟩] : List Item).map BvhOp.ins ++
        [.rebuild, .rem ⟨1, ⟨1,0,0⟩⟩, .rem ⟨0, ⟨0,0,0⟩⟩])) ⟨⟨0,0,0⟩, 1⟩ = []) :=
  ⟨⟨by decide, by decide, by decide⟩,
    bvh_insert_remove_round_trip [⟨0, ⟨0,0,0⟩⟩, ⟨1, ⟨1,0,0⟩⟩]
      [.rebuild, .rem ⟨1, ⟨1,0,0⟩⟩, .rem ⟨0, ⟨0,0,0⟩⟩]
      (by decide) (by decide) (by decide) ⟨⟨0,0,0⟩, 1⟩⟩

/-- C4: immediately after `rebuild`, every leaf of the resulting tree holds at
least `MIN_LEAF_NODE_SIZE` items, except possibly the root itself when the
whole index holds fewer than `MIN_LEAF_NODE_SIZE` items (`ChildrenLM` exempts
only the root; when the total is at least the minimum even a leaf root
satisfies the bound). -/
theorem bvh_rebuild_leaf_min (t : Option BNode) (root : BNode)
    (h : bvhRebuild t = some root) :
    ChildrenLM root ∧
      (MIN_LEAF_NODE_SIZE ≤ (treeItems t).length → LeafMin root) := by
  rcases t with _ | old
  · simp [bvhRebuild] at h
  · simp only [bvhRebuild] at h
    injection h with h1
    subst h1
    refine ⟨subdivide_childrenLM _ _, ?_⟩
    intro hlen
    simp only [treeItems] at hlen
    exact subdivide_leafMin _ _ hlen

theorem bvh_rebuild_leaf_min_witness :
    bvhRebuild (some (.mk ([] : List Item) none none zeroBox)) =
      some (.mk ([] : List Item) none none zeroBox) ∧
    (ChildrenLM (.mk ([] : List Item) none none zeroBox) ∧
      (MIN_LEAF_NODE_SIZE ≤
          (treeItems (some (.mk ([] : List Item) none none zeroBox))).length →
        LeafMin (.mk ([] : List Item) none none zeroBox))) := by
  have h : bvhRebuild (some (.mk ([] : List Item) none none zeroBox)) =
      some (.mk ([] : List Item) none none zeroBox) := by
    simp only [bvhRebuild]
    show some (subdivideList [] zeroBox) = _
    rw [subdivideList, if_pos (by decide)]
  exact ⟨h, bvh_rebuild_leaf_min _ _ h⟩

/-- A parent with an empty own list and two full leaves of
`MIN_LEAF_NODE_SIZE` items each (such states arise from `rebuild` on larger
inputs followed by removals; the tree here is written out directly so that
the counterexample is a closed computation). -/
def c5Left : BNode :=
  .mk ((List.range 16).map (fun i => ⟨i, ⟨0,0,0⟩⟩)) none none ⟨⟨0,0,0⟩,⟨0,0,0⟩⟩

def c5Right : BNode :=
  .mk ((List.range 16).map (fun i => ⟨16+i, ⟨1,0,0⟩⟩)) none none ⟨⟨1,0,0⟩,⟨1,0,0⟩⟩

def c5Root : BNode := .mk [] (some c5Left) (some c5Right) ⟨⟨0,0,0⟩,⟨1,0,0⟩⟩

/-- C5 counterexample: removing one item of the full left leaf (its count
drops from `MIN_LEAF_NODE_SIZE` to `MIN_LEAF_NODE_SIZE - 1`) does NOT leave
the parent childless — the sibling stays attached as the parent's right
child, so the parent does not become a leaf holding the union of the two
lists. -/
theorem bvh_remove_collapse_counterexample :
    (match bvhRemove (some c5Root) ⟨0, ⟨0,0,0⟩⟩ with
      | some n => n.right.isSome
      | none => false) = true := by
  decide

/-- C5 (amended): when removing an item makes a childless left leaf fall
below `MIN_LEAF_NODE_SIZE`, only that leaf is collapsed into the parent: the
parent consumes the leaf's remaining list, detaches the left child, keeps the
sibling as its right child, and the walk stops there with recomputed bounds
(and with the stop-node assert `left != null && right != null` failing). -/
theorem bvh_remove_collapse_keeps_sibling (x : Item) (pItems lItems : List Item)
    (sib : BNode) (pb lb : Box3)
    (hx : x ∉ pItems) (hxl : x ∈ lItems)
    (hsmall : (lItems.filter (fun i => !decide (i = x))).length <
      MIN_LEAF_NODE_SIZE) :
    removeGo x (.mk pItems (some (.mk lItems none none lb)) (some sib) pb) =
      .stopped (.mk (pItems ++ lItems.filter (fun i => !decide (i = x)))
          none (some sib)
          (recalcBounds (pItems ++ lItems.filter (fun i => !decide (i = x)))
            none (some sib) pb))
        false := by
  have hlc : removeGo x (.mk lItems none none lb) =
      .pending (lItems.filter (fun i => !decide (i = x))) := by
    rw [removeGo_owner_eq x lItems none none lb hxl]
    rw [if_pos (by
      simp only [Option.isNone_none, Bool.and_self, Bool.true_and]
      exact decide_eq_true hsmall)]
  rw [removeGo_left_pending_eq x pItems (some (.mk lItems none none lb))
    (some sib) pb _ hx (by rw [removeGoOpt_some]; exact hlc)]
  rw [if_neg (by simp)]
  rw [stopAt]
  rfl

theorem bvh_remove_collapse_keeps_sibling_witness :
    ((⟨0, ⟨0,0,0⟩⟩ : Item) ∉ ([] : List Item) ∧
      (⟨0, ⟨0,0,0⟩⟩ : Item) ∈ (List.range 16).map
        (fun i => (⟨i, ⟨0,0,0⟩⟩ : Item)) ∧
      (((List.range 16).map (fun i => (⟨i, ⟨0,0,0⟩⟩ : Item))).filter
        (fun i => !decide (i = (⟨0, ⟨0,0,0⟩⟩ : Item)))).length <
        MIN_LEAF_NODE_SIZE) ∧
    removeGo (⟨0, ⟨0,0,0⟩⟩ : Item) (.mk ([] : List Item) (some c5Left)
        (some c5Right) ⟨⟨0,0,0⟩,⟨1,0,0⟩⟩) =
      .stopped (.mk (([] : List Item) ++
          ((List.range 16).map (fun i => (⟨i, ⟨0,0,0⟩⟩ : Item))).filter
            (fun i => !decide (i = (⟨0, ⟨0,0,0⟩⟩ : Item))))
          none (some c5Right)
          (recalcBounds (([] : List Item) ++
            ((List.range 16).map (fun i => (⟨i, ⟨0,0,0⟩⟩ : Item))).filter
              (fun i => !decide (i = (⟨0, ⟨0,0,0⟩⟩ : Item))))
            none (some c5Right) ⟨⟨0,0,0⟩,⟨1,0,0⟩⟩))
        false :=
  ⟨⟨by decide, by decide, by decide⟩,
    bvh_remove_collapse_keeps_sibling ⟨0, ⟨0,0,0⟩⟩ []
      ((List.range 16).map (fun i => ⟨i, ⟨0,0,0⟩⟩)) c5Right ⟨⟨0,0,0⟩,⟨1,0,0⟩⟩
      ⟨⟨0,0,0⟩,⟨0,0,0⟩⟩ (by decide) (by decide) (by decide)⟩

/-- C7 (code bug): a contract-respecting sequence — insert two fresh items,
then remove one — makes the collapse walk of `remove` stop at the root, whose
children are both null, so the debug assertion
`assert(currentNode.leftNode != null && currentNode.rightNode != null)` in
`BinaryBvh.remove` is violated. -/
theorem bvh_remove_assert_violation :
    bvhRemoveAssertOk (bvhRun [.ins ⟨0, ⟨0,0,0⟩⟩, .ins ⟨1, ⟨1,0,0⟩⟩])
      ⟨0, ⟨0,0,0⟩⟩ = false := by
  decide

/-- C8 (code bug): `remove` rewires the owner's list around the removed item
and clears its owner reference, but never nulls the removed item's own
`nextItem` link: after inserting two items and removing the first, the
removed item's `nextItem` still points at its old successor instead of being
null. -/
theorem bvh_remove_dangling_next :
    removedNextItem (bvhRun [.ins ⟨0, ⟨0,0,0⟩⟩, .ins ⟨1, ⟨1,0,0⟩⟩])
      ⟨0, ⟨0,0,0⟩⟩ = some ⟨1, ⟨1,0,0⟩⟩ := by
  decide

end Boids

namespace Boids

def c1Box : Box3 := ⟨⟨0,0,0⟩, ⟨2,2,2⟩⟩

def c1Item : Item := ⟨0, ⟨0,0,0⟩⟩

def c1Sphere : Sphere := ⟨⟨1,1,1⟩, 1⟩

/-- C1 counterexample: the octree query yields an item strictly farther from
the sphere center than the radius.  The unit sphere centered in the box
`[0,2]³` has distance exactly 1 to every face, so `aabbInsideSphere` reports
the box as fully inside the sphere and the fast path returns the whole
subtree unfiltered — including the corner item at distance `√3 > 1`. -/
theorem query_exact_set_counterexample :
    c1Item ∈ (runOct c1Box 4 4 [OctOp.ins c1Item]).queryItemsFromSphere c1Sphere ∧
    c1Sphere.containsPoint c1Item.pos = false := by
  have hroot : (runOct c1Box 4 4 [OctOp.ins c1Item]).root =
      ONode.mk c1Box false [c1Item] 1 [] := by
    simp only [runOct, List.foldl_cons, List.foldl_nil, Octree.runOp, mkOctree,
      Octree.insert]
    rw [ONode.insert_eq_bucket (by decide) (Or.inl (by decide))]
    simp
  constructor
  · show c1Item ∈ (runOct c1Box 4 4 [OctOp.ins c1Item]).root.query c1Sphere
    rw [hroot]
    rw [ONode.query_eq_inside ?h1 ?h2]
    case h1 =>
      simp only [Box3.intersectsSphere, Box3.clampPoint, Vec3.clamp, Vec3.distSq,
        c1Box, c1Sphere]
      norm_num
    case h2 =>
      simp only [aabbInsideSphere, distancesToAabbSides, signedDistancesToAabbSides,
        Box3.containsPoint, c1Box, c1Sphere, List.map, List.all]
      norm_num
    simp [ONode.getAllItems]
  · simp only [Sphere.containsPoint, Vec3.distSq, c1Item, c1Sphere]
    norm_num

/-- C1 (amended): both index variants are sound and complete in the weaker
sense: every yielded item is currently stored, and every stored item whose
position lies within the query radius is yielded.  The queries are NOT exact:
the `aabbInsideSphere` fast path yields the whole subtree without a per-item
distance check (and its face-distance test does not bound the box corners),
so items farther than the radius can also be yielded.  The brute-force
small-subtree path, by contrast, does filter every item with the exact
sphere check. -/
theorem query_sound_complete (b : Box3) (cap maxD : ℕ) (oops : List OctOp)
    (hcap : 1 ≤ cap) (bops : List BvhOp) (s : Sphere) :
    (∀ i ∈ (runOct b cap maxD oops).queryItemsFromSphere s,
      i ∈ (runOct b cap maxD oops).root.allItems) ∧
    (∀ i ∈ (runOct b cap maxD oops).root.allItems,
      s.containsPoint i.pos = true →
      i ∈ (runOct b cap maxD oops).queryItemsFromSphere s) ∧
    (∀ i ∈ bvhQuery (bvhRun bops) s, i ∈ treeItems (bvhRun bops)) ∧
    (∀ i ∈ treeItems (bvhRun bops), s.containsPoint i.pos = true →
      i ∈ bvhQuery (bvhRun bops) s) := by
  refine ⟨?_, ?_, ?_, ?_⟩
  · intro i hi
    exact ONode.query_sound _ hi
  · intro i hi hs
    exact ONode.query_complete _ (runOct_owf b cap maxD oops hcap) hi hs
  · intro i hi
    rcases hres : bvhRun bops with _ | root
    · rw [bvhQuery.eq_def, hres] at hi
      simp at hi
    · rw [bvhQuery.eq_def, hres] at hi
      have h2 := queryStack_sound s [root] i hi
      simp only [treeItems]
      simpa using h2
  · intro i hi hs
    rcases hres : bvhRun bops with _ | root
    · rw [treeItems.eq_def, hres] at hi
      simp at hi
    · rw [treeItems.eq_def, hres] at hi
      have hinv := bvhRun_inv bops
      rw [hres] at hinv
      obtain ⟨_, hprop⟩ := hinv
      obtain ⟨_, _, hbwf⟩ := hprop root rfl
      simp only [bvhQuery]
      refine queryStack_complete s [root] ?_ i ?_ hs
      · intro n hn
        simp only [List.mem_singleton] at hn
        subst hn
        exact hbwf
      · simpa using hi

theorem query_sound_complete_witness :
    1 ≤ 1 ∧
    ((∀ i ∈ (runOct c1Box 1 1 [OctOp.ins c1Item]).queryItemsFromSphere c1Sphere,
      i ∈ (runOct c1Box 1 1 [OctOp.ins c1Item]).root.allItems) ∧
    (∀ i ∈ (runOct c1Box 1 1 [OctOp.ins c1Item]).root.allItems,
      c1Sphere.containsPoint i.pos = true →
      i ∈ (runOct c1Box 1 1 [OctOp.ins c1Item]).queryItemsFromSphere c1Sphere) ∧
    (∀ i ∈ bvhQuery (bvhRun [BvhOp.ins c1Item]) c1Sphere,
      i ∈ treeItems (bvhRun [BvhOp.ins c1Item])) ∧
    (∀ i ∈ treeItems (bvhRun [BvhOp.ins c1Item]),
      c1Sphere.containsPoint i.pos = true →
      i ∈ bvhQuery (bvhRun [BvhOp.ins c1Item]) c1Sphere)) :=
  ⟨by decide,
    query_sound_complete c1Box 1 1 [OctOp.ins c1Item] (by decide)
      [BvhOp.ins c1Item] c1Sphere⟩

/-- C2: a single query yields each stored item at most once, for both index
variants — for the octree under pairwise-distinct inserted items (the source
octree never checks for duplicates, so distinctness of the inserted items is
part of the public contract), for the BVH after any operation sequence (its
`insert` refuses duplicates via `itemData.ownerNode`). -/
theorem query_no_duplicates (b : Box3) (cap maxD : ℕ) (oops : List OctOp)
    (hcap : 1 ≤ cap)
    (hnd : (oops.filterMap (fun op => match op with
      | OctOp.ins i => some i
      | OctOp.clear => none)).Nodup)
    (bops : List BvhOp) (s s' : Sphere) :
    ((runOct b cap maxD oops).queryItemsFromSphere s).Nodup ∧
    (bvhQuery (bvhRun bops) s').Nodup := by
  constructor
  · exact ONode.query_nodup _ (runOct_contents b cap maxD oops hcap hnd)
  · rcases hres : bvhRun bops with _ | root
    · simp [bvhQuery]
    · have hinv := bvhRun_inv bops
      rw [hres] at hinv
      have hnd2 : root.allItems.Nodup := by simpa [treeItems] using hinv.1
      simp only [bvhQuery]
      refine queryStack_nodup s' [root] ?_
      simpa using hnd2

theorem query_no_duplicates_witness :
    (1 ≤ 1 ∧
      (([OctOp.ins c1Item] : List OctOp).filterMap (fun op => match op with
        | OctOp.ins i => some i
        | OctOp.clear => none)).Nodup) ∧
    (((runOct c1Box 1 1 [OctOp.ins c1Item]).queryItemsFromSphere c1Sphere).Nodup ∧
      (bvhQuery (bvhRun [BvhOp.ins c1Item]) c1Sphere).Nodup) :=
  ⟨⟨by decide, by decide⟩,
    query_no_duplicates c1Box 1 1 [OctOp.ins c1Item] (by decide) (by decide)
      [BvhOp.ins c1Item] c1Sphere c1Sphere⟩

end Boids

namespace Boids

/-- A ray for `rayVsAabb` (`THREE.Ray`): an origin and a direction.  The
source normalizes a copy of the direction before use; normalization is
irrational in general, so this embedding takes the direction as already
normalized (every concrete instance below uses a unit direction). -/
structure Ray where
  origin : Vec3
  direction : Vec3
deriving DecidableEq, Repr

/-- `RayIntersectionPoint`. -/
structure RayHit where
  point : Vec3
  normal : Vec3
  distance : ℚ
deriving DecidableEq, Repr

/-- The default `epsilon = 1e-3` of `rayVsAabb`. -/
def RAY_EPSILON : ℚ := 1/1000

/-- The slab parameters of `rayVsAabb`:
`near = (aabb.min - origin) / dir`, `far = (aabb.max - origin) / dir`
(componentwise), `tNear = maxComponent(min(near, far))`,
`tFar = minComponent(max(near, far))`.  `maxComponent`/`minComponent` scan
with strict comparisons, which agrees with `max`/`min`. -/
def rayNearFar (ray : Ray) (aabb : Box3) : ℚ × ℚ :=
  (Vec3.maxComponent (Vec3.cmin
      (Vec3.div (aabb.min.sub ray.origin) ray.direction)
      (Vec3.div (aabb.max.sub ray.origin) ray.direction)),
   Vec3.minComponent (Vec3.cmax
      (Vec3.div (aabb.min.sub ray.origin) ray.direction)
      (Vec3.div (aabb.max.sub ray.origin) ray.direction)))

/-- The accumulated boundary normal of `rayVsAabb` at parameter `t`: for each
axis whose coordinate (relative to the box center) is within `epsilon` of the
min (resp. max) face, the loop adds the inward unit vector `+eᵢ` (resp.
`-eᵢ`); the result is then flipped when the ray origin is NOT inside the box.
The final `normal.normalize()` of the source only rescales this vector (it
does not change its direction or sign) and is irrational for corner hits, so
the embedding keeps the unnormalized vector. -/
def rayHitNormal (ray : Ray) (aabb : Box3) (t : ℚ) : Vec3 :=
  Vec3.smul (if aabb.containsPoint ray.origin then 1 else -1)
    (Vec3.add (Vec3.add (Vec3.add (Vec3.add (Vec3.add (Vec3.add ⟨0,0,0⟩
      (if |((ray.origin.add (Vec3.smul t ray.direction)).sub aabb.center).x -
          (aabb.min.sub aabb.center).x| < RAY_EPSILON then ⟨1,0,0⟩ else ⟨0,0,0⟩))
      (if |((ray.origin.add (Vec3.smul t ray.direction)).sub aabb.center).y -
          (aabb.min.sub aabb.center).y| < RAY_EPSILON then ⟨0,1,0⟩ else ⟨0,0,0⟩))
      (if |((ray.origin.add (Vec3.smul t ray.direction)).sub aabb.center).z -
          (aabb.min.sub aabb.center).z| < RAY_EPSILON then ⟨0,0,1⟩ else ⟨0,0,0⟩))
      (if |((ray.origin.add (Vec3.smul t ray.direction)).sub aabb.center).x -
          (aabb.max.sub aabb.center).x| < RAY_EPSILON then ⟨-1,0,0⟩ else ⟨0,0,0⟩))
      (if |((ray.origin.add (Vec3.smul t ray.direction)).sub aabb.center).y -
          (aabb.max.sub aabb.center).y| < RAY_EPSILON then ⟨0,-1,0⟩ else ⟨0,0,0⟩))
      (if |((ray.origin.add (Vec3.smul t ray.direction)).sub aabb.center).z -
          (aabb.max.sub aabb.center).z| < RAY_EPSILON then ⟨0,0,-1⟩ else ⟨0,0,0⟩))

/-- `rayVsAabb` from `Collisions.ts` (with the default epsilon): empty when
`tNear > tFar || tFar < 0 || tNear > 0 && rayMaxLength < tNear ||
rayMaxLength < tFar`, otherwise a single hit at parameter
`tNear > 0 ? tNear : tFar`. -/
def rayVsAabb (ray : Ray) (aabb : Box3) (rayMaxLength : ℚ) : List RayHit :=
  if (rayNearFar ray aabb).1 > (rayNearFar ray aabb).2 ∨
      (rayNearFar ray aabb).2 < 0 ∨
      ((rayNearFar ray aabb).1 > 0 ∧ rayMaxLength < (rayNearFar ray aabb).1) ∨
      rayMaxLength < (rayNearFar ray aabb).2
  then []
  else
    [⟨ray.origin.add (Vec3.smul
        (if (rayNearFar ray aabb).1 > 0 then (rayNearFar ray aabb).1
          else (rayNearFar ray aabb).2) ray.direction),
      rayHitNormal ray aabb
        (if (rayNearFar ray aabb).1 > 0 then (rayNearFar ray aabb).1
          else (rayNearFar ray aabb).2),
      if (rayNearFar ray aabb).1 > 0 then (rayNearFar ray aabb).1
        else (rayNearFar ray aabb).2⟩]

def c9Ray : Ray := ⟨⟨0,0,0⟩, ⟨1/3, 2/3, 2/3⟩⟩

def c9Box : Box3 := ⟨⟨-9,-9,-9⟩, ⟨9,9,9⟩⟩

/-- C9 counterexample: a unit ray from the center of the box `[-9,9]³` with
`rayMaxLength = 10`.  The infinite line hits the box (`tNear = -27/2 ≤ tFar =
27/2`), the exit is not behind the origin (`0 ≤ tFar`) and the entry is not
beyond the maximum length (`tNear ≤ 10`), so the claimed emptiness condition
demands one hit — but the code's extra disjunct `rayMaxLength < tFar` makes
it return the empty result. -/
theorem rayVsAabb_emptiness_counterexample :
    rayVsAabb c9Ray c9Box 10 = [] ∧
    (rayNearFar c9Ray c9Box).1 ≤ (rayNearFar c9Ray c9Box).2 ∧
    0 ≤ (rayNearFar c9Ray c9Box).2 ∧
    (rayNearFar c9Ray c9Box).1 ≤ 10 := by
  have h1 : rayNearFar c9Ray c9Box = (-27/2, 27/2) := by
    norm_num [rayNearFar, c9Ray, c9Box, Vec3.div, Vec3.sub, Vec3.cmin, Vec3.cmax,
      Vec3.maxComponent, Vec3.minComponent]
  refine ⟨?_, ?_, ?_, ?_⟩
  · simp only [rayVsAabb, h1]
    norm_num
  · rw [h1]
    norm_num
  · rw [h1]
    norm_num
  · rw [h1]
    norm_num

/-- C9 (amended): `rayVsAabb` returns the empty result exactly when the slab
interval is empty (`tFar < tNear`), or the exit is behind the origin
(`tFar < 0`), or a positive entry is beyond `rayMaxLength`, or the EXIT is
beyond `rayMaxLength` (this last disjunct is absent from the claimed
condition); otherwise it returns exactly one hit, at parameter
`tNear > 0 ? tNear : tFar`, whose point lies on the ray at that parameter
and whose accumulated boundary normal is sign-flipped when the ray origin is
outside the box. -/
theorem rayVsAabb_spec (ray : Ray) (aabb : Box3) (L : ℚ) :
    (rayVsAabb ray aabb L = [] ↔
      ((rayNearFar ray aabb).1 > (rayNearFar ray aabb).2 ∨
        (rayNearFar ray aabb).2 < 0 ∨
        ((rayNearFar ray aabb).1 > 0 ∧ L < (rayNearFar ray aabb).1) ∨
        L < (rayNearFar ray aabb).2)) ∧
    (rayVsAabb ray aabb L).length ≤ 1 ∧
    (∀ h ∈ rayVsAabb ray aabb L,
      h.distance = (if (rayNearFar ray aabb).1 > 0 then (rayNearFar ray aabb).1
        else (rayNearFar ray aabb).2) ∧
      h.point = ray.origin.add (Vec3.smul h.distance ray.direction) ∧
      h.normal = rayHitNormal ray aabb h.distance) := by
  by_cases hcond : (rayNearFar ray aabb).1 > (rayNearFar ray aabb).2 ∨
      (rayNearFar ray aabb).2 < 0 ∨
      ((rayNearFar ray aabb).1 > 0 ∧ L < (rayNearFar ray aabb).1) ∨
      L < (rayNearFar ray aabb).2
  · rw [rayVsAabb, if_pos hcond]
    exact ⟨iff_of_true rfl hcond, by simp, by simp⟩
  · rw [rayVsAabb, if_neg hcond]
    refine ⟨iff_of_false (by simp) hcond, by simp, ?_⟩
    intro h hmem
    rw [List.mem_singleton] at hmem
    subst hmem
    exact ⟨rfl, rfl, rfl⟩

end Boids
